import Mathlib

/-!
# Fork-join drivers of async++: `parallel_for`, `parallel_map_reduce`, `parallel_reduce`

A shallow embedding of `include/async++/parallel_for.h` and
`include/async++/parallel_reduce.h`.

* A user callback that may throw is a function into `Except ε _`.
* The partitioner type is a template parameter of the drivers; here it is a
  record of operations `Partitioner P α`.
* The recursion of the drivers is only as well-founded as the partitioner's
  `split`, so the drivers take a recursion budget (`fuel`) and return `none`
  when it is exhausted.
* Besides the value (or failure) a run records *what was invoked*: a tree
  `Trace` with one leaf per base case (the sequential loop, in order) and one
  `fork` per spawned task.  The tree does not fix any timing between the two
  branches of a fork.
-/

namespace Async

/-! ## Data model -/

/-- A partitioner type `P` over elements `α`, as the drivers use it:
`split` is `partitioner.split()` (it mutates the receiver and returns the
detached portion, so the model returns the pair *(receiver afterwards,
returned portion)*), `elems` is ordered forward iteration `begin .. end`, and
`from_range` is the conversion of a plain range, given by its elements in
order, into a partitioner. -/
structure Partitioner (P α : Type) where
  from_range : List α → P
  split : P → P × P
  elems : P → List α

/-- The `Range&&` argument of the drivers: either a plain range (its elements
in order) or, in the recursive calls, a partitioner. -/
inductive Range (P α : Type) where
  | plain (r : List α)
  | part (p : P)

/-- Modelled from the spec: `async::to_partitioner` (declared outside the two
headers) builds the adapter from a range; in the recursive calls the range is
a partitioner already and the algorithm runs over that partitioner itself. -/
def to_partitioner {P α : Type} (K : Partitioner P α) : Range P α → P
  | .plain r => K.from_range r
  | .part p => p

/-- The elements of a range, in iteration order. -/
def Range.elems {P α : Type} (K : Partitioner P α) : Range P α → List α
  | .plain r => r
  | .part p => K.elems p

/-- What a call invoked: a `leaf` is a base case with the user-callback
invocations of its sequential loop in order; a `fork` is a recursive case with
the trace of the inline branch, the trace of the spawned branch, and the
invocations made by the caller after the join. -/
inductive Trace (E : Type) where
  | leaf (events : List E)
  | fork (inline spawned : Trace E) (after : List E)
  deriving DecidableEq, Repr

/-- All invocations of a trace: inline branch, spawned branch, then the
caller's own after the join (one linearisation of the tree). -/
def Trace.events {E : Type} : Trace E → List E
  | .leaf es => es
  | .fork l t es => l.events ++ t.events ++ es

/-- Number of base cases of a trace. -/
def Trace.leaves {E : Type} : Trace E → Nat
  | .leaf _ => 1
  | .fork l t _ => l.leaves + t.leaves

/-- Number of spawned tasks of a trace. -/
def Trace.spawns {E : Type} : Trace E → Nat
  | .leaf _ => 0
  | .fork l t _ => l.spawns + t.spawns + 1

/-- A finished call: what it invoked, and its value or the failure it raised. -/
structure Run (E ε β : Type) where
  trace : Trace E
  result : Except ε β

/-- An invocation made by `parallel_map_reduce`. -/
inductive Event (α β : Type) where
  | map (x : α)
  | reduce (a b : β)
  deriving DecidableEq, Repr

/-! ## parallel_for.h -/

/-- The base-case loop `for (auto&& i: partitioner) func(i);`: the elements
`func` was invoked on, and whether the loop completed or `func` threw. -/
def for_loop {α ε : Type} (func : α → Except ε Unit) : List α → List α × Except ε Unit
  | [] => ([], .ok ())
  | i :: rest =>
    match func i with
    | .error e => ([i], .error e)
    | .ok _ => ((for_loop func rest).1.cons i, (for_loop func rest).2)

/-- Modelled from the spec: the task bridge `local_spawn` and `t.get()`
(declared outside the two headers), for a task without a value.  The spawned
closure runs to completion whatever the inline branch does; a failure of the
inline branch unwinds the caller before `t.get()` is reached; otherwise
`t.get()` re-raises the failure captured in the task, if any. -/
def join_for {α ε : Type} (inline spawned : Run α ε Unit) : Run α ε Unit :=
  { trace := .fork inline.trace spawned.trace []
    result :=
      match inline.result with
      | .error a => .error a
      | .ok _ => spawned.result }

/-- The driver `parallel_for(sched, range, func)`. -/
def parallel_for {P α ε : Type} (K : Partitioner P α) :
    Nat → Range P α → (α → Except ε Unit) → Option (Run α ε Unit)
  | 0, _, _ => none
  | fuel + 1, range, func =>
    let partitioner := to_partitioner K range
    let subpart := (K.split partitioner).2
    let partitioner := (K.split partitioner).1
    if (K.elems subpart).isEmpty then
      some { trace := .leaf (for_loop func (K.elems partitioner)).1
             result := (for_loop func (K.elems partitioner)).2 }
    else
      match parallel_for K fuel (.part subpart) func,
            parallel_for K fuel (.part partitioner) func with
      | some t, some l => some (join_for l t)
      | _, _ => none

/-! ## parallel_reduce.h -/

/-- The identity transform `detail::default_map`. -/
def default_map {α : Type} (x : α) : α := x

/-- The base-case loop `for (auto&& i: partitioner) out = reduce(out, map(i));`
started at accumulator `out`: the invocations made, and the final accumulator
or the failure thrown by `map` or `reduce`. -/
def fold_loop {α β ε : Type} (map : α → Except ε β) (reduce : β → β → Except ε β) :
    β → List α → List (Event α β) × Except ε β
  | out, [] => ([], .ok out)
  | out, i :: rest =>
    match map i with
    | .error e => ([.map i], .error e)
    | .ok y =>
      match reduce out y with
      | .error e => ([.map i, .reduce out y], .error e)
      | .ok out2 =>
        (.map i :: .reduce out y :: (fold_loop map reduce out2 rest).1,
          (fold_loop map reduce out2 rest).2)

/-- Modelled from the spec: the task bridge `local_spawn` and `t.get()`
(declared outside the two headers), for a task with a value, followed by the
caller's `return reduce(std::move(out), t.get())`.  The spawned closure runs to
completion whatever the inline branch does; a failure of the inline branch
unwinds the caller before `t.get()` is reached; `t.get()` yields the task's
value or re-raises its captured failure; only then is `reduce` invoked, with
the inline value on the left. -/
def join_reduce {α β ε : Type} (reduce : β → β → Except ε β)
    (inline spawned : Run (Event α β) ε β) : Run (Event α β) ε β :=
  match inline.result with
  | .error a => { trace := .fork inline.trace spawned.trace [], result := .error a }
  | .ok out =>
    match spawned.result with
    | .error b => { trace := .fork inline.trace spawned.trace [], result := .error b }
    | .ok remote =>
      { trace := .fork inline.trace spawned.trace [.reduce out remote]
        result := reduce out remote }

/-- The driver `parallel_map_reduce(sched, range, init, map, reduce)`. -/
def parallel_map_reduce {P α β ε : Type} (K : Partitioner P α) :
    Nat → Range P α → β → (α → Except ε β) → (β → β → Except ε β) →
      Option (Run (Event α β) ε β)
  | 0, _, _, _, _ => none
  | fuel + 1, range, init, map, reduce =>
    let partitioner := to_partitioner K range
    let subpart := (K.split partitioner).2
    let partitioner := (K.split partitioner).1
    if (K.elems subpart).isEmpty then
      some { trace := .leaf (fold_loop map reduce init (K.elems partitioner)).1
             result := (fold_loop map reduce init (K.elems partitioner)).2 }
    else
      match parallel_map_reduce K fuel (.part subpart) init map reduce,
            parallel_map_reduce K fuel (.part partitioner) init map reduce with
      | some t, some l => some (join_reduce reduce l t)
      | _, _ => none

/-- The driver `parallel_reduce(sched, range, init, reduce)`: map-reduce with
`detail::default_map()` as the transform. -/
def parallel_reduce {P α ε : Type} (K : Partitioner P α)
    (fuel : Nat) (range : Range P α) (init : α) (reduce : α → α → Except ε α) :
    Option (Run (Event α α) ε α) :=
  parallel_map_reduce K fuel range init (fun x => .ok (default_map x)) reduce

/-! ## The `std::initializer_list` overloads -/

/-- A position marker into a fixed sequence (an iterator of a
`std::initializer_list`): the sequence and an index into it. -/
structure Position (α : Type) where
  seq : List α
  pos : Nat

/-- The marker `range.begin()` of a literal fixed sequence. -/
def initializer_list_begin {α : Type} (range : List α) : Position α :=
  { seq := range, pos := 0 }

/-- The marker `range.end()` of a literal fixed sequence. -/
def initializer_list_end {α : Type} (range : List α) : Position α :=
  { seq := range, pos := range.length }

/-- Modelled from the spec: `async::make_range(begin, end)` (declared outside
the two headers) builds a range from a pair of position markers: the elements
from the first marker up to, not including, the second. -/
def make_range {P α : Type} (first last : Position α) : Range P α :=
  .plain ((first.seq.take last.pos).drop first.pos)

/-- The overloads `parallel_for(sched, std::initializer_list<T> range, func)`
and `parallel_for(std::initializer_list<T> range, func)`: each forwards to the
general-range overload with the same scheduler, which is not a parameter of
the model. -/
def parallel_for_initializer_list {P α ε : Type} (K : Partitioner P α) (fuel : Nat)
    (range : List α) (func : α → Except ε Unit) : Option (Run α ε Unit) :=
  parallel_for K fuel (make_range (initializer_list_begin range) (initializer_list_end range))
    func

/-- The overloads of `parallel_map_reduce` taking a `std::initializer_list<T>`,
with and without `sched`: each forwards to the general-range overload with the
same scheduler. -/
def parallel_map_reduce_initializer_list {P α β ε : Type} (K : Partitioner P α) (fuel : Nat)
    (range : List α) (init : β) (map : α → Except ε β) (reduce : β → β → Except ε β) :
    Option (Run (Event α β) ε β) :=
  parallel_map_reduce K fuel
    (make_range (initializer_list_begin range) (initializer_list_end range)) init map reduce

/-- The overloads of `parallel_reduce` taking a `std::initializer_list<T>`, with
and without `sched`: each forwards to the general-range `parallel_reduce` with
the same scheduler. -/
def parallel_reduce_initializer_list {P α ε : Type} (K : Partitioner P α) (fuel : Nat)
    (range : List α) (init : α) (reduce : α → α → Except ε α) :
    Option (Run (Event α α) ε α) :=
  parallel_reduce K fuel
    (make_range (initializer_list_begin range) (initializer_list_end range)) init reduce

/-! ## The partitioner contract -/

/-- Splitting only segments: the remainder and the detached portion together
hold exactly the elements held before (as a multiset), and converting a plain
range keeps its elements. -/
structure Segments {P α : Type} (K : Partitioner P α) : Prop where
  from_range_perm : ∀ r, (K.elems (K.from_range r)).Perm r
  split_perm : ∀ p, (K.elems (K.split p).1 ++ K.elems (K.split p).2).Perm (K.elems p)

/-- Splitting never reorders: the remainder holds the earlier elements, the
detached portion the later ones, and converting a plain range keeps its
elements in order. -/
structure Ordered {P α : Type} (K : Partitioner P α) : Prop where
  from_range_elems : ∀ r, K.elems (K.from_range r) = r
  split_elems : ∀ p, K.elems (K.split p).1 ++ K.elems (K.split p).2 = K.elems p

/-- Repeated splitting is well-founded: whenever `split` returns a non-empty
portion, that portion and the remainder are both smaller than the partitioner
was, for a well-founded relation `lt`. -/
structure WellFoundedSplit {P α : Type} (K : Partitioner P α) (lt : P → P → Prop) : Prop where
  wf : WellFounded lt
  remainder_lt : ∀ p, K.elems (K.split p).2 ≠ [] → lt (K.split p).1 p
  subpart_lt : ∀ p, K.elems (K.split p).2 ≠ [] → lt (K.split p).2 p

/-- A computation with a recursion budget returns `x`: every large enough
budget yields `x`. -/
def Returns {X : Type} (f : Nat → Option X) (x : X) : Prop :=
  ∃ n, ∀ fuel, n ≤ fuel → f fuel = some x

/-! ## Specification vocabulary -/

/-- The sequential left fold `acc := r(acc, m(x))`. -/
def seq_fold {α β : Type} (m : α → β) (r : β → β → β) (init : β) (xs : List α) : β :=
  xs.foldl (fun acc x => r acc (m x)) init

/-- What holds of every run of `parallel_for` over a partitioner with elements
`xs`. -/
structure ForSpec {α ε : Type} (func : α → Except ε Unit) (xs : List α)
    (run : Run α ε Unit) : Prop where
  ok_iff : run.result = .ok () ↔ ∀ x ∈ xs, func x = .ok ()
  error_raised : ∀ a, run.result = .error a → ∃ x ∈ run.trace.events, func x = .error a
  calls_mem : ∀ x ∈ run.trace.events, x ∈ xs
  calls_perm : (∀ x ∈ xs, func x = .ok ()) → run.trace.events.Perm xs

/-- What holds of every run of `parallel_map_reduce` over a partitioner with
elements `xs` that returned a value. -/
structure ReduceOkSpec {α β ε : Type} (map : α → Except ε β) (reduce : β → β → Except ε β)
    (xs : List α) (run : Run (Event α β) ε β) : Prop where
  maps_ok : ∀ x ∈ xs, ∃ y, map x = .ok y
  reduces_ok : ∀ a b, Event.reduce a b ∈ run.trace.events → ∃ c, reduce a b = .ok c

/-! ## The concrete partitioners used for the examples -/


/-- A partitioner over a list with grain 1: it detaches the later half while
it holds at least two elements, and nothing otherwise. -/
def halving (α : Type) : Partitioner (List α) α where
  from_range := fun r => r
  split := fun p =>
    if 2 ≤ p.length then (p.take (p.length / 2), p.drop (p.length / 2)) else (p, [])
  elems := fun p => p

/-- A partitioner over a list that detaches everything after the first element
while it holds at least two elements, and nothing otherwise. -/
def peeling (α : Type) : Partitioner (List α) α where
  from_range := fun r => r
  split := fun p => if 2 ≤ p.length then (p.take 1, p.drop 1) else (p, [])
  elems := fun p => p

/-- The measure of the example partitioners: one list is shorter than another. -/
def shorter {α : Type} (a b : List α) : Prop := a.length < b.length

/-! ## The common recursion shape of the two drivers -/

/-- The recursion both drivers share, over an arbitrary base-case computation
`leaf` and join `join`; used only to prove facts about both drivers at once. -/
def fork_join {P α X : Type} (K : Partitioner P α) (leaf : List α → X) (join : X → X → X) :
    Nat → P → Option X
  | 0, _ => none
  | fuel + 1, p =>
    if (K.elems (K.split p).2).isEmpty then
      some (leaf (K.elems (K.split p).1))
    else
      match fork_join K leaf join fuel (K.split p).2,
            fork_join K leaf join fuel (K.split p).1 with
      | some t, some l => some (join l t)
      | _, _ => none

/-- The base case of `parallel_for` as a run. -/
def for_leaf {α ε : Type} (func : α → Except ε Unit) (xs : List α) : Run α ε Unit :=
  { trace := .leaf (for_loop func xs).1, result := (for_loop func xs).2 }

/-- The base case of `parallel_map_reduce` as a run. -/
def fold_leaf {α β ε : Type} (map : α → Except ε β) (reduce : β → β → Except ε β)
    (init : β) (xs : List α) : Run (Event α β) ε β :=
  { trace := .leaf (fold_loop map reduce init xs).1, result := (fold_loop map reduce init xs).2 }

/-! ## Further specification vocabulary and example partitioners -/

/-- The sequential fold `acc := reduce(acc, map(x))` with callbacks that may
raise: it stops at the first failure of `map` or of `reduce`. -/
def seq_fold_raising {α β ε : Type} (map : α → Except ε β) (reduce : β → β → Except ε β) :
    β → List α → Except ε β
  | acc, [] => .ok acc
  | acc, x :: rest =>
    match map x with
    | .error e => .error e
    | .ok y =>
      match reduce acc y with
      | .error e => .error e
      | .ok acc2 => seq_fold_raising map reduce acc2 rest

/-- The elements `map` was invoked on, in order, among a list of invocations. -/
def map_calls {α β : Type} : List (Event α β) → List α
  | [] => []
  | .map x :: rest => x :: map_calls rest
  | .reduce _ _ :: rest => map_calls rest

/-- The number of tasks the recursion spawns over a partitioner: it depends on
the split policy only. -/
def count_spawns {P α : Type} (K : Partitioner P α) (fuel : Nat) (p : P) : Option Nat :=
  fork_join K (fun _ => 0) (fun l t => l + t + 1) fuel p

/-- Splitting without reordering, but with the sides exchanged: the detached
portion holds the earlier elements and the remainder the later ones. -/
structure DetachesEarlier {P α : Type} (K : Partitioner P α) : Prop where
  from_range_elems : ∀ r, K.elems (K.from_range r) = r
  split_elems : ∀ p, K.elems (K.split p).2 ++ K.elems (K.split p).1 = K.elems p

/-- A partitioner over a list with grain `g`: it detaches the later half while
it holds at least `2 * g` elements (and at least two), and nothing otherwise. -/
def grained (g : Nat) (α : Type) : Partitioner (List α) α where
  from_range := fun r => r
  split := fun p =>
    if 2 ≤ p.length ∧ 2 * g ≤ p.length then (p.take (p.length / 2), p.drop (p.length / 2))
    else (p, [])
  elems := fun p => p

/-- A partitioner over a list that detaches the first element and keeps the
later ones while it holds at least two elements, and detaches nothing
otherwise. -/
def front_detaching (α : Type) : Partitioner (List α) α where
  from_range := fun r => r
  split := fun p => if 2 ≤ p.length then (p.drop 1, p.take 1) else (p, [])
  elems := fun p => p

/-! ## The recursion: unfolding, monotonicity, termination, induction -/

theorem to_partitioner_part {P α : Type} (K : Partitioner P α) (p : P) :
    to_partitioner K (.part p) = p := rfl

theorem parallel_for_eq_fork_join {P α ε : Type} (K : Partitioner P α)
    (func : α → Except ε Unit) :
    ∀ (fuel : Nat) (range : Range P α),
      parallel_for K fuel range func
        = fork_join K (for_leaf func) join_for fuel (to_partitioner K range) := by
  intro fuel
  induction fuel with
  | zero => intro range; rfl
  | succ n ih =>
    intro range
    simp only [parallel_for, fork_join, for_leaf, ih, to_partitioner_part]
    split_ifs
    · rfl
    · cases fork_join K (for_leaf func) join_for n (K.split (to_partitioner K range)).2 <;>
        cases fork_join K (for_leaf func) join_for n (K.split (to_partitioner K range)).1 <;>
        rfl

theorem parallel_map_reduce_eq_fork_join {P α β ε : Type} (K : Partitioner P α)
    (init : β) (map : α → Except ε β) (reduce : β → β → Except ε β) :
    ∀ (fuel : Nat) (range : Range P α),
      parallel_map_reduce K fuel range init map reduce
        = fork_join K (fold_leaf map reduce init) (join_reduce reduce) fuel
            (to_partitioner K range) := by
  intro fuel
  induction fuel with
  | zero => intro range; rfl
  | succ n ih =>
    intro range
    simp only [parallel_map_reduce, fork_join, fold_leaf, ih, to_partitioner_part]
    split_ifs
    · rfl
    · cases fork_join K (fold_leaf map reduce init) (join_reduce reduce) n
          (K.split (to_partitioner K range)).2 <;>
        cases fork_join K (fold_leaf map reduce init) (join_reduce reduce) n
          (K.split (to_partitioner K range)).1 <;>
        rfl

theorem fork_join_succ_leaf {P α X : Type} (K : Partitioner P α) (leaf : List α → X)
    (join : X → X → X) (fuel : Nat) (p : P) (h : K.elems (K.split p).2 = []) :
    fork_join K leaf join (fuel + 1) p = some (leaf (K.elems (K.split p).1)) := by
  simp [fork_join, h]

theorem fork_join_succ_fork {P α X : Type} (K : Partitioner P α) (leaf : List α → X)
    (join : X → X → X) (fuel : Nat) (p : P) (h : K.elems (K.split p).2 ≠ []) (l t : X)
    (hl : fork_join K leaf join fuel (K.split p).1 = some l)
    (ht : fork_join K leaf join fuel (K.split p).2 = some t) :
    fork_join K leaf join (fuel + 1) p = some (join l t) := by
  simp [fork_join, h, hl, ht]

/-- More budget never changes a result. -/
theorem fork_join_mono {P α X : Type} (K : Partitioner P α) (leaf : List α → X)
    (join : X → X → X) :
    ∀ (n m : Nat) (p : P) (x : X), n ≤ m →
      fork_join K leaf join n p = some x → fork_join K leaf join m p = some x := by
  intro n
  induction n with
  | zero => intro m p x _ h; simp [fork_join] at h
  | succ n ih =>
    intro m p x hnm h
    obtain ⟨k, rfl⟩ : ∃ k, m = k + 1 := ⟨m - 1, by omega⟩
    have hk : n ≤ k := by omega
    by_cases he : K.elems (K.split p).2 = []
    · rw [fork_join_succ_leaf K leaf join _ p he] at h ⊢
      exact h
    · simp only [fork_join, List.isEmpty_iff, he, if_false] at h
      cases ht : fork_join K leaf join n (K.split p).2 with
      | none => simp [ht] at h
      | some t =>
        cases hl : fork_join K leaf join n (K.split p).1 with
        | none => simp [ht, hl] at h
        | some l =>
          simp only [ht, hl] at h
          rw [fork_join_succ_fork K leaf join k p he l t (ih k _ l hk hl) (ih k _ t hk ht)]
          exact h

/-- Under a well-founded split the recursion returns for some budget. -/
theorem fork_join_terminates {P α X : Type} (K : Partitioner P α) (lt : P → P → Prop)
    (hwf : WellFoundedSplit K lt) (leaf : List α → X) (join : X → X → X) (p : P) :
    ∃ n x, fork_join K leaf join n p = some x := by
  induction p using hwf.wf.induction with
  | _ p ih =>
    by_cases he : K.elems (K.split p).2 = []
    · exact ⟨1, _, fork_join_succ_leaf K leaf join 0 p he⟩
    · obtain ⟨n1, l, hl⟩ := ih _ (hwf.remainder_lt p he)
      obtain ⟨n2, t, ht⟩ := ih _ (hwf.subpart_lt p he)
      refine ⟨max n1 n2 + 1, join l t, ?_⟩
      exact fork_join_succ_fork K leaf join _ p he l t
        (fork_join_mono K leaf join n1 _ _ l (le_max_left _ _) hl)
        (fork_join_mono K leaf join n2 _ _ t (le_max_right _ _) ht)

/-- Under a well-founded split the recursion returns. -/
theorem fork_join_returns {P α X : Type} (K : Partitioner P α) (lt : P → P → Prop)
    (hwf : WellFoundedSplit K lt) (leaf : List α → X) (join : X → X → X) (p : P) :
    ∃ x, Returns (fun fuel => fork_join K leaf join fuel p) x := by
  obtain ⟨n, x, h⟩ := fork_join_terminates K lt hwf leaf join p
  exact ⟨x, n, fun fuel hf => fork_join_mono K leaf join n fuel p x hf h⟩

/-- Induction over the call tree: a property that holds of every base case and
is preserved by every join holds of every result. -/
theorem fork_join_induct {P α X : Type} (K : Partitioner P α) (leaf : List α → X)
    (join : X → X → X) (Q : P → X → Prop)
    (hleaf : ∀ p, K.elems (K.split p).2 = [] → Q p (leaf (K.elems (K.split p).1)))
    (hfork : ∀ p l t, K.elems (K.split p).2 ≠ [] →
      Q (K.split p).1 l → Q (K.split p).2 t → Q p (join l t)) :
    ∀ (fuel : Nat) (p : P) (x : X), fork_join K leaf join fuel p = some x → Q p x := by
  intro fuel
  induction fuel with
  | zero => intro p x h; simp [fork_join] at h
  | succ n ih =>
    intro p x h
    by_cases he : K.elems (K.split p).2 = []
    · rw [fork_join_succ_leaf K leaf join _ p he] at h
      cases h
      exact hleaf p he
    · simp only [fork_join, List.isEmpty_iff, he, if_false] at h
      cases ht : fork_join K leaf join n (K.split p).2 with
      | none => simp [ht] at h
      | some t =>
        cases hl : fork_join K leaf join n (K.split p).1 with
        | none => simp [ht, hl] at h
        | some l =>
          simp only [ht, hl] at h
          cases h
          exact hfork p l t he (ih _ l hl) (ih _ t ht)

/-! ## Facts about `parallel_for` -/

theorem for_loop_ok_iff {α ε : Type} (func : α → Except ε Unit) (xs : List α) :
    (for_loop func xs).2 = .ok () ↔ ∀ x ∈ xs, func x = .ok () := by
  induction xs with
  | nil => simp [for_loop]
  | cons i rest ih =>
    cases h : func i with
    | error e => simp [for_loop, h]
    | ok u => simp [for_loop, h, ih]

theorem for_loop_error {α ε : Type} (func : α → Except ε Unit) (xs : List α) (a : ε) :
    (for_loop func xs).2 = .error a → ∃ x ∈ (for_loop func xs).1, func x = .error a := by
  induction xs with
  | nil => simp [for_loop]
  | cons i rest ih =>
    cases h : func i with
    | error e =>
      simp only [for_loop, h]
      intro he
      exact ⟨i, by simp, by rw [h]; exact he⟩
    | ok u =>
      simp only [for_loop, h]
      intro he
      obtain ⟨x, hx, hfx⟩ := ih he
      exact ⟨x, List.mem_cons_of_mem _ hx, hfx⟩

theorem for_loop_calls_initial {α ε : Type} (func : α → Except ε Unit) (xs : List α) :
    (for_loop func xs).1 <+: xs := by
  induction xs with
  | nil => simp [for_loop]
  | cons i rest ih =>
    cases h : func i with
    | error e =>
      simp only [for_loop, h]
      exact ⟨rest, rfl⟩
    | ok u =>
      simp only [for_loop, h]
      exact (List.prefix_cons_inj i).2 ih

theorem for_loop_calls_of_ok {α ε : Type} (func : α → Except ε Unit) (xs : List α)
    (h : ∀ x ∈ xs, func x = .ok ()) : (for_loop func xs).1 = xs := by
  induction xs with
  | nil => simp [for_loop]
  | cons i rest ih =>
    have hi : func i = .ok () := h i (by simp)
    have hr : ∀ x ∈ rest, func x = .ok () := fun x hx => h x (List.mem_cons_of_mem _ hx)
    simp [for_loop, hi, ih hr]

theorem ForSpec.of_perm {α ε : Type} {func : α → Except ε Unit} {xs ys : List α}
    {run : Run α ε Unit} (h : ForSpec func xs run) (hp : xs.Perm ys) : ForSpec func ys run where
  ok_iff := by
    rw [h.ok_iff]
    exact ⟨fun H x hx => H x (hp.mem_iff.2 hx), fun H x hx => H x (hp.mem_iff.1 hx)⟩
  error_raised := h.error_raised
  calls_mem := fun x hx => hp.mem_iff.1 (h.calls_mem x hx)
  calls_perm := fun H => (h.calls_perm (fun x hx => H x (hp.mem_iff.1 hx))).trans hp

theorem for_leaf_spec {α ε : Type} (func : α → Except ε Unit) (xs : List α) :
    ForSpec func xs (for_leaf func xs) where
  ok_iff := for_loop_ok_iff func xs
  error_raised := for_loop_error func xs
  calls_mem := fun _ hx => (for_loop_calls_initial func xs).subset hx
  calls_perm := fun H => by
    simp only [for_leaf, Trace.events]
    rw [for_loop_calls_of_ok func xs H]

theorem join_for_spec {α ε : Type} (func : α → Except ε Unit) (xs ys : List α)
    (l t : Run α ε Unit) (hl : ForSpec func xs l) (ht : ForSpec func ys t) :
    ForSpec func (xs ++ ys) (join_for l t) := by
  cases hres : l.result with
  | error a =>
    have hnot : ¬ ∀ x ∈ xs, func x = .ok () := fun H => by
      have := hl.ok_iff.2 H
      rw [hres] at this
      cases this
    refine ⟨?_, ?_, ?_, ?_⟩
    · simp only [join_for, hres]
      constructor
      · intro h; cases h
      · intro H
        exact absurd (fun x hx => H x (List.mem_append_left _ hx)) hnot
    · intro b hb
      simp only [join_for, hres] at hb
      obtain ⟨x, hx, hfx⟩ := hl.error_raised a hres
      refine ⟨x, ?_, ?_⟩
      · simp [join_for, Trace.events, hx]
      · rw [hfx, ← hb]
    · intro x hx
      simp only [join_for, Trace.events, List.append_nil, List.mem_append] at hx
      rcases hx with hx | hx
      · exact List.mem_append_left _ (hl.calls_mem x hx)
      · exact List.mem_append_right _ (ht.calls_mem x hx)
    · intro H
      exact absurd (fun x hx => H x (List.mem_append_left _ hx)) hnot
  | ok u =>
    have hxs : ∀ x ∈ xs, func x = .ok () := hl.ok_iff.1 (by rw [hres])
    refine ⟨?_, ?_, ?_, ?_⟩
    · simp only [join_for, hres]
      rw [ht.ok_iff]
      constructor
      · intro H x hx
        rcases List.mem_append.1 hx with hx | hx
        · exact hxs x hx
        · exact H x hx
      · intro H x hx
        exact H x (List.mem_append_right _ hx)
    · intro b hb
      simp only [join_for, hres] at hb
      obtain ⟨x, hx, hfx⟩ := ht.error_raised b hb
      exact ⟨x, by simp [join_for, Trace.events, hx], hfx⟩
    · intro x hx
      simp only [join_for, Trace.events, List.append_nil, List.mem_append] at hx
      rcases hx with hx | hx
      · exact List.mem_append_left _ (hl.calls_mem x hx)
      · exact List.mem_append_right _ (ht.calls_mem x hx)
    · intro H
      simp only [join_for, Trace.events, List.append_nil]
      exact (hl.calls_perm hxs).append
        (ht.calls_perm (fun x hx => H x (List.mem_append_right _ hx)))

theorem Segments.to_partitioner_perm {P α : Type} {K : Partitioner P α} (hK : Segments K)
    (range : Range P α) : (K.elems (to_partitioner K range)).Perm (Range.elems K range) := by
  cases range with
  | plain r => exact hK.from_range_perm r
  | part p => exact List.Perm.refl _

theorem Ordered.segments {P α : Type} {K : Partitioner P α} (hK : Ordered K) : Segments K where
  from_range_perm := fun r => by rw [hK.from_range_elems r]
  split_perm := fun p => by rw [hK.split_elems p]

theorem Ordered.to_partitioner_elems {P α : Type} {K : Partitioner P α} (hK : Ordered K)
    (range : Range P α) : K.elems (to_partitioner K range) = Range.elems K range := by
  cases range with
  | plain r => exact hK.from_range_elems r
  | part p => rfl

/-- Every run of `parallel_for` satisfies `ForSpec` for the elements of its range. -/
theorem parallel_for_spec {P α ε : Type} (K : Partitioner P α) (hK : Segments K)
    (func : α → Except ε Unit) (fuel : Nat) (range : Range P α) (run : Run α ε Unit)
    (h : parallel_for K fuel range func = some run) :
    ForSpec func (Range.elems K range) run := by
  rw [parallel_for_eq_fork_join] at h
  refine ForSpec.of_perm ?_ (hK.to_partitioner_perm range)
  refine fork_join_induct K (for_leaf func) join_for (fun p r => ForSpec func (K.elems p) r)
    ?_ ?_ fuel _ run h
  · intro p he
    have hp := hK.split_perm p
    rw [he, List.append_nil] at hp
    exact (for_leaf_spec func _).of_perm hp
  · intro p l t _ hl ht
    exact (join_for_spec func _ _ l t hl ht).of_perm (hK.split_perm p)

/-- Under a well-founded split `parallel_for` returns. -/
theorem parallel_for_returns {P α ε : Type} (K : Partitioner P α) (lt : P → P → Prop)
    (hwf : WellFoundedSplit K lt) (func : α → Except ε Unit) (range : Range P α) :
    ∃ run, Returns (fun fuel => parallel_for K fuel range func) run := by
  obtain ⟨run, n, h⟩ := fork_join_returns K lt hwf (for_leaf func) join_for
    (to_partitioner K range)
  exact ⟨run, n, fun fuel hf => (parallel_for_eq_fork_join K func fuel range).trans (h fuel hf)⟩

theorem Returns.some {X : Type} {f : Nat → Option X} {x : X} (h : Returns f x) :
    ∃ fuel, f fuel = some x := by
  obtain ⟨n, hn⟩ := h
  exact ⟨n, hn n (le_refl n)⟩

/-! ## Facts about `parallel_map_reduce` -/

/-- Under a well-founded split `parallel_map_reduce` returns. -/
theorem parallel_map_reduce_returns {P α β ε : Type} (K : Partitioner P α) (lt : P → P → Prop)
    (hwf : WellFoundedSplit K lt) (init : β) (map : α → Except ε β)
    (reduce : β → β → Except ε β) (range : Range P α) :
    ∃ run, Returns (fun fuel => parallel_map_reduce K fuel range init map reduce) run := by
  obtain ⟨run, n, h⟩ := fork_join_returns K lt hwf (fold_leaf map reduce init)
    (join_reduce reduce) (to_partitioner K range)
  exact ⟨run, n, fun fuel hf =>
    (parallel_map_reduce_eq_fork_join K init map reduce fuel range).trans (h fuel hf)⟩

theorem fold_loop_pure {α β ε : Type} (m : α → β) (r : β → β → β) (xs : List α) :
    ∀ out : β,
      (fold_loop (ε := ε) (fun x => .ok (m x)) (fun a b => .ok (r a b)) out xs).2
        = .ok (seq_fold m r out xs) := by
  induction xs with
  | nil => intro out; rfl
  | cons i rest ih =>
    intro out
    simp only [fold_loop, seq_fold, List.foldl_cons]
    exact ih _

theorem join_reduce_pure {α β ε : Type} (r : β → β → β) (l t : Run (Event α β) ε β) (a b : β)
    (hl : l.result = .ok a) (ht : t.result = .ok b) :
    (join_reduce (fun a b => .ok (r a b)) l t).result = .ok (r a b) := by
  simp [join_reduce, hl, ht]

/-- Restarting the fold from a neutral `init` and combining afterwards gives
the same as continuing it, when `r` is associative. -/
theorem seq_fold_restart {α β : Type} (m : α → β) (r : β → β → β) (init : β)
    (hassoc : ∀ a b c, r (r a b) c = r a (r b c)) (hneutral : ∀ a, r a init = a)
    (ys : List α) : ∀ acc : β, seq_fold m r acc ys = r acc (seq_fold m r init ys) := by
  induction ys with
  | nil => intro acc; simp [seq_fold, hneutral]
  | cons y rest ih =>
    intro acc
    have h1 : seq_fold m r acc (y :: rest) = seq_fold m r (r acc (m y)) rest := rfl
    have h2 : seq_fold m r init (y :: rest) = seq_fold m r (r init (m y)) rest := rfl
    rw [h1, h2, ih (r acc (m y)), ih (r init (m y)), ← hassoc acc, ← hassoc acc, hneutral]

theorem seq_fold_append {α β : Type} (m : α → β) (r : β → β → β) (init : β)
    (hassoc : ∀ a b c, r (r a b) c = r a (r b c)) (hneutral : ∀ a, r a init = a)
    (xs ys : List α) :
    seq_fold m r init (xs ++ ys) = r (seq_fold m r init xs) (seq_fold m r init ys) := by
  have h : seq_fold m r init (xs ++ ys) = seq_fold m r (seq_fold m r init xs) ys := by
    simp [seq_fold, List.foldl_append]
  rw [h, seq_fold_restart m r init hassoc hneutral ys]

/-- With callbacks that do not raise, an associative `r` and a neutral `init`,
every run of `parallel_map_reduce` yields the sequential left fold. -/
theorem parallel_map_reduce_pure {P α β ε : Type} (K : Partitioner P α) (hK : Ordered K)
    (m : α → β) (r : β → β → β) (init : β)
    (hassoc : ∀ a b c, r (r a b) c = r a (r b c)) (hneutral : ∀ a, r a init = a)
    (fuel : Nat) (range : Range P α) (run : Run (Event α β) ε β)
    (h : parallel_map_reduce K fuel range init (fun x => .ok (m x)) (fun a b => .ok (r a b))
      = some run) :
    run.result = .ok (seq_fold m r init (Range.elems K range)) := by
  rw [parallel_map_reduce_eq_fork_join] at h
  rw [← hK.to_partitioner_elems range]
  refine fork_join_induct K _ _
    (fun p (x : Run (Event α β) ε β) => x.result = .ok (seq_fold m r init (K.elems p)))
    ?_ ?_ fuel _ run h
  · intro p he
    have hp := hK.split_elems p
    rw [he, List.append_nil] at hp
    rw [← hp]
    exact fold_loop_pure m r _ init
  · intro p l t _ hl ht
    rw [← hK.split_elems p, seq_fold_append m r init hassoc hneutral]
    exact join_reduce_pure r l t _ _ hl ht

theorem fold_loop_ok {α β ε : Type} (map : α → Except ε β) (reduce : β → β → Except ε β)
    (xs : List α) :
    ∀ (out v : β), (fold_loop map reduce out xs).2 = .ok v →
      (∀ x ∈ xs, ∃ y, map x = .ok y) ∧
      (∀ a b, Event.reduce a b ∈ (fold_loop map reduce out xs).1 → ∃ c, reduce a b = .ok c) := by
  induction xs with
  | nil => intro out v _; simp [fold_loop]
  | cons i rest ih =>
    intro out v h
    cases hm : map i with
    | error e => simp [fold_loop, hm] at h
    | ok y =>
      cases hr : reduce out y with
      | error e => simp [fold_loop, hm, hr] at h
      | ok out2 =>
        simp only [fold_loop, hm, hr] at h ⊢
        obtain ⟨h1, h2⟩ := ih out2 v h
        constructor
        · intro x hx
          rcases List.mem_cons.1 hx with rfl | hx
          · exact ⟨y, hm⟩
          · exact h1 x hx
        · intro a b hab
          simp only [List.mem_cons, Event.reduce.injEq, reduceCtorEq, false_or] at hab
          rcases hab with ⟨rfl, rfl⟩ | hab
          · exact ⟨out2, hr⟩
          · exact h2 a b hab

theorem join_reduce_ok {α β ε : Type} (map : α → Except ε β) (reduce : β → β → Except ε β)
    (xs ys : List α) (l t : Run (Event α β) ε β)
    (hl : ∀ v, l.result = .ok v → ReduceOkSpec map reduce xs l)
    (ht : ∀ v, t.result = .ok v → ReduceOkSpec map reduce ys t)
    (v : β) (h : (join_reduce reduce l t).result = .ok v) :
    ReduceOkSpec map reduce (xs ++ ys) (join_reduce reduce l t) := by
  cases hlr : l.result with
  | error a => simp [join_reduce, hlr] at h
  | ok out =>
    cases htr : t.result with
    | error b => simp [join_reduce, hlr, htr] at h
    | ok remote =>
      simp only [join_reduce, hlr, htr] at h ⊢
      have h1 := hl out hlr
      have h2 := ht remote htr
      constructor
      · intro x hx
        rcases List.mem_append.1 hx with hx | hx
        · exact h1.maps_ok x hx
        · exact h2.maps_ok x hx
      · intro a b hab
        simp only [Trace.events, List.mem_append, List.mem_singleton, Event.reduce.injEq] at hab
        rcases hab with (hab | hab) | ⟨rfl, rfl⟩
        · exact h1.reduces_ok a b hab
        · exact h2.reduces_ok a b hab
        · exact ⟨v, h⟩

/-- Every run of `parallel_map_reduce` that returned a value raised nowhere. -/
theorem parallel_map_reduce_ok {P α β ε : Type} (K : Partitioner P α) (hK : Segments K)
    (init : β) (map : α → Except ε β) (reduce : β → β → Except ε β)
    (fuel : Nat) (range : Range P α) (run : Run (Event α β) ε β)
    (h : parallel_map_reduce K fuel range init map reduce = some run)
    (v : β) (hv : run.result = .ok v) :
    ReduceOkSpec map reduce (Range.elems K range) run := by
  rw [parallel_map_reduce_eq_fork_join] at h
  have key := fork_join_induct K (fold_leaf map reduce init) (join_reduce reduce)
    (fun p x => ∀ v, x.result = .ok v → ReduceOkSpec map reduce (K.elems p) x)
    ?_ ?_ fuel _ run h v hv
  · exact ⟨fun x hx => key.maps_ok x ((hK.to_partitioner_perm range).mem_iff.2 hx),
      key.reduces_ok⟩
  · intro p he v hv
    have hp := hK.split_perm p
    rw [he, List.append_nil] at hp
    obtain ⟨h1, h2⟩ := fold_loop_ok map reduce _ init v hv
    exact ⟨fun x hx => h1 x (hp.mem_iff.2 hx), h2⟩
  · intro p l t _ hl ht v hv
    have := join_reduce_ok map reduce _ _ l t hl ht v hv
    exact ⟨fun x hx => this.maps_ok x ((hK.split_perm p).mem_iff.2 hx), this.reduces_ok⟩

/-! ## The example partitioners satisfy the contract -/

theorem shorter_wf {α : Type} : WellFounded (shorter (α := α)) :=
  (measure (List.length (α := α))).wf

theorem halving_ordered (α : Type) : Ordered (halving α) where
  from_range_elems := fun _ => rfl
  split_elems := fun p => by
    by_cases h : 2 ≤ p.length <;> simp [halving, h]

theorem halving_wf (α : Type) : WellFoundedSplit (halving α) shorter where
  wf := shorter_wf
  remainder_lt := fun p => by
    by_cases h : 2 ≤ p.length
    · intro _
      simp only [halving, h, if_true, shorter, List.length_take]
      omega
    · simp [halving, h]
  subpart_lt := fun p => by
    by_cases h : 2 ≤ p.length
    · intro _
      simp only [halving, h, if_true, shorter, List.length_drop]
      omega
    · simp [halving, h]

theorem peeling_ordered (α : Type) : Ordered (peeling α) where
  from_range_elems := fun _ => rfl
  split_elems := fun p => by
    by_cases h : 2 ≤ p.length
    · simp only [peeling, h, if_true]
      exact List.take_append_drop 1 p
    · simp [peeling, h]

theorem peeling_wf (α : Type) : WellFoundedSplit (peeling α) shorter where
  wf := shorter_wf
  remainder_lt := fun p => by
    by_cases h : 2 ≤ p.length
    · intro _
      simp only [peeling, h, if_true, shorter, List.length_take]
      omega
    · simp [peeling, h]
  subpart_lt := fun p => by
    by_cases h : 2 ≤ p.length
    · intro _
      simp only [peeling, h, if_true, shorter, List.length_drop]
      omega
    · simp [peeling, h]

/-! ## The claims -/

/-- Claim C1: for every range, every split policy that keeps the earlier
elements as remainder and detaches the later ones with a well-founded `split`,
every transform `m`, every associative `r` and every `init` neutral for `r`,
`parallel_map_reduce(R, init, m, r)` returns the sequential left fold
`acc := r(acc, m(x))` over the elements of the range in original order starting
from `init`; hence a second split policy over a range with the same elements
returns the same result. -/
theorem parallel_map_reduce_eq_seq_fold {P P2 α β ε : Type}
    (K : Partitioner P α) (lt : P → P → Prop) (hK : Ordered K) (hwf : WellFoundedSplit K lt)
    (K2 : Partitioner P2 α) (lt2 : P2 → P2 → Prop) (hK2 : Ordered K2)
    (hwf2 : WellFoundedSplit K2 lt2)
    (m : α → β) (r : β → β → β) (init : β)
    (hassoc : ∀ a b c, r (r a b) c = r a (r b c))
    (hneutral : ∀ a, r a init = a ∧ r init a = a)
    (range : Range P α) (range2 : Range P2 α)
    (hsame : Range.elems K2 range2 = Range.elems K range) :
    ∃ run : Run (Event α β) ε β,
      Returns (fun fuel => parallel_map_reduce K fuel range init
        (fun x => .ok (m x)) (fun a b => .ok (r a b))) run ∧
      run.result = .ok (seq_fold m r init (Range.elems K range)) ∧
      ∃ run2 : Run (Event α β) ε β,
        Returns (fun fuel => parallel_map_reduce K2 fuel range2 init
          (fun x => .ok (m x)) (fun a b => .ok (r a b))) run2 ∧
        run2.result = run.result := by
  obtain ⟨run, hrun⟩ := parallel_map_reduce_returns (ε := ε) K lt hwf init
    (fun x => .ok (m x)) (fun a b => .ok (r a b)) range
  obtain ⟨run2, hrun2⟩ := parallel_map_reduce_returns (ε := ε) K2 lt2 hwf2 init
    (fun x => .ok (m x)) (fun a b => .ok (r a b)) range2
  obtain ⟨n, hn⟩ := hrun.some
  obtain ⟨n2, hn2⟩ := hrun2.some
  have h1 := parallel_map_reduce_pure K hK m r init hassoc (fun a => (hneutral a).1)
    n range run hn
  have h2 := parallel_map_reduce_pure K2 hK2 m r init hassoc (fun a => (hneutral a).1)
    n2 range2 run2 hn2
  refine ⟨run, hrun, h1, run2, hrun2, ?_⟩
  rw [h1, h2, hsame]

/-- Witness for C1: `[1,2,3,4]`, identity, addition, `0` gives `10`, under the
halving policy and under the peeling policy. -/
theorem parallel_map_reduce_eq_seq_fold_witness :
    ∃ run : Run (Event Nat Nat) Unit Nat,
      Returns (fun fuel => parallel_map_reduce (halving Nat) fuel (.plain [1, 2, 3, 4]) 0
        (fun x => .ok x) (fun a b => .ok (a + b))) run ∧
      run.result = .ok 10 ∧
      ∃ run2 : Run (Event Nat Nat) Unit Nat,
        Returns (fun fuel => parallel_map_reduce (peeling Nat) fuel (.plain [1, 2, 3, 4]) 0
          (fun x => .ok x) (fun a b => .ok (a + b))) run2 ∧
        run2.result = run.result :=
  parallel_map_reduce_eq_seq_fold (halving Nat) shorter (halving_ordered Nat) (halving_wf Nat)
    (peeling Nat) shorter (peeling_ordered Nat) (peeling_wf Nat)
    (fun x => x) (fun a b => a + b) 0 (fun a b c => Nat.add_assoc a b c)
    (fun a => ⟨Nat.add_zero a, Nat.zero_add a⟩) (.plain [1, 2, 3, 4]) (.plain [1, 2, 3, 4]) rfl

/-- Claim C2: for every range, every split policy whose `split` only segments
the elements and is well-founded, and every `func` that does not raise,
`parallel_for(R, func)` returns normally and the invocations of `func` are a
permutation of the elements of the range: exactly one invocation per element. -/
theorem parallel_for_once_per_element {P α ε : Type}
    (K : Partitioner P α) (lt : P → P → Prop) (hK : Segments K) (hwf : WellFoundedSplit K lt)
    (func : α → Except ε Unit) (range : Range P α)
    (hfunc : ∀ x ∈ Range.elems K range, func x = .ok ()) :
    ∃ run : Run α ε Unit,
      Returns (fun fuel => parallel_for K fuel range func) run ∧
      run.result = .ok () ∧
      run.trace.events.Perm (Range.elems K range) := by
  obtain ⟨run, hrun⟩ := parallel_for_returns K lt hwf func range
  obtain ⟨n, hn⟩ := hrun.some
  have hs := parallel_for_spec K hK func n range run hn
  exact ⟨run, hrun, hs.ok_iff.2 hfunc, hs.calls_perm hfunc⟩

/-- Witness for C2: the halving policy over `[1,2,3,4,5]`. -/
theorem parallel_for_once_per_element_witness :
    ∃ run : Run Nat Unit Unit,
      Returns (fun fuel => parallel_for (halving Nat) fuel (.plain [1, 2, 3, 4, 5])
        (fun _ => .ok ())) run ∧
      run.result = .ok () ∧
      run.trace.events.Perm [1, 2, 3, 4, 5] :=
  parallel_for_once_per_element (halving Nat) shorter (halving_ordered Nat).segments
    (halving_wf Nat) (fun _ => .ok ()) (.plain [1, 2, 3, 4, 5]) (fun _ _ => rfl)

/-- Claim C3: in the recursive case `parallel_map_reduce` returns
`reduce(local, remote)` with `local` the result over the remainder and `remote`
the result over the split-off portion; and for every range of strings and
every split policy satisfying the partitioner contract, with `reduce` the
concatenation, `map` the identity and `init` the empty string, the result is
the concatenation of the elements in original order. -/
theorem parallel_map_reduce_combine_order {P α β ε : Type}
    (K : Partitioner P α) (KS : Partitioner P String) (lt : P → P → Prop)
    (hKS : Ordered KS) (hwf : WellFoundedSplit KS lt) :
    (∀ (fuel : Nat) (range : Range P α) (init : β) (map : α → Except ε β)
        (reduce : β → β → Except ε β) (l t : Run (Event α β) ε β) (loc remote : β),
        K.elems (K.split (to_partitioner K range)).2 ≠ [] →
        parallel_map_reduce K fuel (.part (K.split (to_partitioner K range)).1)
          init map reduce = some l →
        parallel_map_reduce K fuel (.part (K.split (to_partitioner K range)).2)
          init map reduce = some t →
        l.result = .ok loc → t.result = .ok remote →
        ∃ run, parallel_map_reduce K (fuel + 1) range init map reduce = some run ∧
          run.result = reduce loc remote) ∧
    (∀ range : Range P String,
      ∃ run : Run (Event String String) ε String,
        Returns (fun fuel => parallel_map_reduce KS fuel range ""
          (fun x => .ok x) (fun a b => .ok (a ++ b))) run ∧
        run.result = .ok (String.join (Range.elems KS range))) := by
  constructor
  · intro fuel range init map reduce l t loc remote hne hl ht hlr htr
    refine ⟨join_reduce reduce l t, ?_, ?_⟩
    · rw [parallel_map_reduce_eq_fork_join] at hl ht ⊢
      exact fork_join_succ_fork K _ _ fuel _ hne l t hl ht
    · simp [join_reduce, hlr, htr]
  · intro range
    obtain ⟨run, hrun⟩ := parallel_map_reduce_returns (ε := ε) KS lt hwf ""
      (fun x => .ok x) (fun a b => .ok (a ++ b)) range
    obtain ⟨n, hn⟩ := hrun.some
    refine ⟨run, hrun, ?_⟩
    exact parallel_map_reduce_pure KS hKS (fun x => x) (fun a b => a ++ b) ""
      (fun a b c => String.append_assoc a b c) (fun a => String.append_empty a) n range run hn

/-- Witness for C3: `["a","b","c","d"]` gives `"abcd"`, the last `reduce` being
`reduce("ab", "cd")`. -/
theorem parallel_map_reduce_combine_order_witness :
    (∃ run : Run (Event String String) Unit String,
      parallel_map_reduce (halving String) 3 (.plain ["a", "b", "c", "d"]) ""
        (fun x => .ok x) (fun a b => .ok (a ++ b)) = some run ∧
      run.result = .ok ("ab" ++ "cd")) ∧
    (∃ run : Run (Event String String) Unit String,
      Returns (fun fuel => parallel_map_reduce (halving String) fuel
        (.plain ["a", "b", "c", "d"]) "" (fun x => .ok x) (fun a b => .ok (a ++ b))) run ∧
      run.result = .ok "abcd") :=
  ⟨(parallel_map_reduce_combine_order (halving String) (halving String) shorter
      (halving_ordered String) (halving_wf String)).1 2 (.plain ["a", "b", "c", "d"]) ""
      (fun x => .ok x) (fun a b => .ok (a ++ b)) _ _ "ab" "cd" (by decide) rfl rfl rfl rfl,
   (parallel_map_reduce_combine_order (α := String) (β := String) (halving String)
      (halving String) shorter (halving_ordered String) (halving_wf String)).2
      (.plain ["a", "b", "c", "d"])⟩

/-- Claim C4: for every range and every split policy satisfying the
partitioner contract, if `func` raises `err` on the element `e` of the range
and returns normally on every other element, `parallel_for(R, func)` raises
exactly `err`, wherever `e` lies. -/
theorem parallel_for_raises_that_failure {P α ε : Type}
    (K : Partitioner P α) (lt : P → P → Prop) (hK : Ordered K) (hwf : WellFoundedSplit K lt)
    (func : α → Except ε Unit) (range : Range P α) (e : α) (err : ε)
    (he : e ∈ Range.elems K range) (hraise : func e = .error err)
    (hothers : ∀ x ∈ Range.elems K range, x ≠ e → func x = .ok ()) :
    ∃ run : Run α ε Unit,
      Returns (fun fuel => parallel_for K fuel range func) run ∧
      run.result = .error err := by
  obtain ⟨run, hrun⟩ := parallel_for_returns K lt hwf func range
  obtain ⟨n, hn⟩ := hrun.some
  have hs := parallel_for_spec K hK.segments func n range run hn
  refine ⟨run, hrun, ?_⟩
  cases hres : run.result with
  | ok u =>
    have hall := hs.ok_iff.1 (by rw [hres])
    have := hall e he
    rw [hraise] at this
    cases this
  | error a =>
    obtain ⟨x, hx, hfx⟩ := hs.error_raised a hres
    by_cases hxe : x = e
    · rw [hxe, hraise] at hfx
      cases hfx
      rfl
    · have := hothers x (hs.calls_mem x hx) hxe
      rw [hfx] at this
      cases this

/-- Witness for C4: over `[1,2,3,4]` with the halving policy, a failure on `1`
(innermost inline branch) and a failure on `4` (a spawned branch) both surface. -/
theorem parallel_for_raises_that_failure_witness :
    (∃ run : Run Nat Nat Unit,
      Returns (fun fuel => parallel_for (halving Nat) fuel (.plain [1, 2, 3, 4])
        (fun x => if x = 1 then .error 7 else .ok ())) run ∧
      run.result = .error 7) ∧
    (∃ run : Run Nat Nat Unit,
      Returns (fun fuel => parallel_for (halving Nat) fuel (.plain [1, 2, 3, 4])
        (fun x => if x = 4 then .error 9 else .ok ())) run ∧
      run.result = .error 9) :=
  ⟨parallel_for_raises_that_failure (halving Nat) shorter (halving_ordered Nat)
      (halving_wf Nat) (fun x => if x = 1 then .error 7 else .ok ()) (.plain [1, 2, 3, 4])
      1 7 (by simp [Range.elems]) (by simp) (fun x _ hx => by simp [hx]),
   parallel_for_raises_that_failure (halving Nat) shorter (halving_ordered Nat)
      (halving_wf Nat) (fun x => if x = 4 then .error 9 else .ok ()) (.plain [1, 2, 3, 4])
      4 9 (by simp [Range.elems]) (by simp) (fun x _ hx => by simp [hx])⟩

/-- Claim C5: for an empty range under the partitioner contract,
`parallel_for` invokes nothing and returns, and `parallel_map_reduce` and
`parallel_reduce` invoke nothing and return `init`, for every `init`, `map`
and `reduce`. -/
theorem empty_range_is_noop {P α β ε : Type}
    (K : Partitioner P α) (hK : Ordered K) (range : Range P α)
    (hempty : Range.elems K range = []) (fuel : Nat) :
    (∀ func : α → Except ε Unit,
      parallel_for K (fuel + 1) range func = some { trace := .leaf [], result := .ok () }) ∧
    (∀ (init : β) (map : α → Except ε β) (reduce : β → β → Except ε β),
      parallel_map_reduce K (fuel + 1) range init map reduce
        = some { trace := .leaf [], result := .ok init }) ∧
    (∀ (init : α) (reduce : α → α → Except ε α),
      parallel_reduce K (fuel + 1) range init reduce
        = some { trace := .leaf [], result := .ok init }) := by
  have h0 : K.elems (to_partitioner K range) = [] := by
    rw [hK.to_partitioner_elems range, hempty]
  have hsplit := hK.split_elems (to_partitioner K range)
  rw [h0] at hsplit
  obtain ⟨h1, h2⟩ := List.append_eq_nil.1 hsplit
  refine ⟨?_, ?_, ?_⟩
  · intro func
    simp [parallel_for, h1, h2, for_loop]
  · intro init map reduce
    simp [parallel_map_reduce, h1, h2, fold_loop]
  · intro init reduce
    simp [parallel_reduce, parallel_map_reduce, h1, h2, fold_loop]

/-- Witness for C5: the empty range under the halving policy, with callbacks
that would raise on every invocation. -/
theorem empty_range_is_noop_witness :
    (∀ func : Nat → Except Nat Unit,
      parallel_for (halving Nat) 1 (.plain []) func
        = some { trace := .leaf [], result := .ok () }) ∧
    (∀ (init : Nat) (map : Nat → Except Nat Nat) (reduce : Nat → Nat → Except Nat Nat),
      parallel_map_reduce (halving Nat) 1 (.plain []) init map reduce
        = some { trace := .leaf [], result := .ok init }) ∧
    (∀ (init : Nat) (reduce : Nat → Nat → Except Nat Nat),
      parallel_reduce (halving Nat) 1 (.plain []) init reduce
        = some { trace := .leaf [], result := .ok init }) :=
  empty_range_is_noop (halving Nat) (halving_ordered Nat) (.plain []) rfl 0

/-- Claim C6: for every range and split policy satisfying the partitioner
contract, `parallel_for(R, func)` returns normally if and only if `func` raises
on no element of the range, and a failure it raises was raised by an
invocation of `func` on an element of the range. -/
theorem parallel_for_propagates {P α ε : Type}
    (K : Partitioner P α) (lt : P → P → Prop) (hK : Ordered K) (hwf : WellFoundedSplit K lt)
    (func : α → Except ε Unit) (range : Range P α) :
    ∃ run : Run α ε Unit,
      Returns (fun fuel => parallel_for K fuel range func) run ∧
      (run.result = .ok () ↔ ∀ x ∈ Range.elems K range, func x = .ok ()) ∧
      (∀ a, run.result = .error a →
        ∃ x ∈ run.trace.events, x ∈ Range.elems K range ∧ func x = .error a) := by
  obtain ⟨run, hrun⟩ := parallel_for_returns K lt hwf func range
  obtain ⟨n, hn⟩ := hrun.some
  have hs := parallel_for_spec K hK.segments func n range run hn
  refine ⟨run, hrun, hs.ok_iff, ?_⟩
  intro a ha
  obtain ⟨x, hx, hfx⟩ := hs.error_raised a ha
  exact ⟨x, hx, hs.calls_mem x hx, hfx⟩

/-- Witness for C6: the halving policy over `[1,2,3,4]` with a `func` that
raises on `2` and on `3`. -/
theorem parallel_for_propagates_witness :
    ∃ run : Run Nat Nat Unit,
      Returns (fun fuel => parallel_for (halving Nat) fuel (.plain [1, 2, 3, 4])
        (fun x => if x = 2 ∨ x = 3 then .error x else .ok ())) run ∧
      (run.result = .ok () ↔ ∀ x ∈ Range.elems (halving Nat) (.plain [1, 2, 3, 4]),
        (if x = 2 ∨ x = 3 then Except.error x else Except.ok ()) = Except.ok ()) ∧
      (∀ a, run.result = .error a →
        ∃ x ∈ run.trace.events, x ∈ Range.elems (halving Nat) (.plain [1, 2, 3, 4]) ∧
          (if x = 2 ∨ x = 3 then Except.error x else Except.ok ()) = Except.error a) :=
  parallel_for_propagates (halving Nat) shorter (halving_ordered Nat) (halving_wf Nat)
    (fun x => if x = 2 ∨ x = 3 then .error x else .ok ()) (.plain [1, 2, 3, 4])

/-- Claim C7: for every range and split policy satisfying the partitioner
contract, if `map` raises on some element of the range, or `reduce` raises in
some invocation that is reached (in a leaf fold or in a final
`reduce(local, remote)`), `parallel_map_reduce` raises and returns no
accumulator value. -/
theorem parallel_map_reduce_fails_whole {P α β ε : Type}
    (K : Partitioner P α) (lt : P → P → Prop) (hK : Ordered K) (hwf : WellFoundedSplit K lt)
    (init : β) (map : α → Except ε β) (reduce : β → β → Except ε β) (range : Range P α) :
    ∃ run : Run (Event α β) ε β,
      Returns (fun fuel => parallel_map_reduce K fuel range init map reduce) run ∧
      ((∃ x ∈ Range.elems K range, ∃ e, map x = .error e) ∨
        (∃ a b e, Event.reduce a b ∈ run.trace.events ∧ reduce a b = .error e) →
        ∃ e, run.result = .error e) := by
  obtain ⟨run, hrun⟩ := parallel_map_reduce_returns K lt hwf init map reduce range
  obtain ⟨n, hn⟩ := hrun.some
  refine ⟨run, hrun, ?_⟩
  intro hfail
  cases hres : run.result with
  | error e => exact ⟨e, rfl⟩
  | ok v =>
    have hs := parallel_map_reduce_ok K hK.segments init map reduce n range run hn v hres
    rcases hfail with ⟨x, hx, e, hxe⟩ | ⟨a, b, e, hab, habe⟩
    · obtain ⟨y, hy⟩ := hs.maps_ok x hx
      rw [hxe] at hy
      cases hy
    · obtain ⟨c, hc⟩ := hs.reduces_ok a b hab
      rw [habe] at hc
      cases hc

/-- Witness for C7: over `[1,2,3,4]` with the halving policy, a `map` that
raises on `3` only (an element of the spawned branch) makes the call raise. -/
theorem parallel_map_reduce_fails_whole_witness :
    ∃ run : Run (Event Nat Nat) Nat Nat,
      Returns (fun fuel => parallel_map_reduce (halving Nat) fuel (.plain [1, 2, 3, 4]) 0
        (fun x => if x = 3 then .error 5 else .ok x) (fun a b => .ok (a + b))) run ∧
      ∃ e, run.result = .error e := by
  obtain ⟨run, hrun, himp⟩ := parallel_map_reduce_fails_whole (halving Nat) shorter
    (halving_ordered Nat) (halving_wf Nat) 0
    (fun x => if x = 3 then Except.error 5 else Except.ok x)
    (fun a b => Except.ok (a + b)) (.plain [1, 2, 3, 4])
  exact ⟨run, hrun, himp (Or.inl ⟨3, by simp [Range.elems], 5, by simp⟩)⟩

/-- Claim C8: in the recursive case of `parallel_for` and of
`parallel_map_reduce`, if the inline recursion over the remainder raises `A`
and the spawned recursion over the split-off portion raises `B`, the call
raises `A`. -/
theorem inline_failure_surfaces {P α β ε : Type}
    (K : Partitioner P α) (fuel : Nat) (range : Range P α) (A B : ε)
    (hne : K.elems (K.split (to_partitioner K range)).2 ≠ []) :
    (∀ (func : α → Except ε Unit) (l t : Run α ε Unit),
      parallel_for K fuel (.part (K.split (to_partitioner K range)).1) func = some l →
      parallel_for K fuel (.part (K.split (to_partitioner K range)).2) func = some t →
      l.result = .error A → t.result = .error B →
      ∃ run, parallel_for K (fuel + 1) range func = some run ∧ run.result = .error A) ∧
    (∀ (init : β) (map : α → Except ε β) (reduce : β → β → Except ε β)
        (l t : Run (Event α β) ε β),
      parallel_map_reduce K fuel (.part (K.split (to_partitioner K range)).1)
        init map reduce = some l →
      parallel_map_reduce K fuel (.part (K.split (to_partitioner K range)).2)
        init map reduce = some t →
      l.result = .error A → t.result = .error B →
      ∃ run, parallel_map_reduce K (fuel + 1) range init map reduce = some run ∧
        run.result = .error A) := by
  constructor
  · intro func l t hl ht hlr _
    refine ⟨join_for l t, ?_, ?_⟩
    · rw [parallel_for_eq_fork_join] at hl ht ⊢
      exact fork_join_succ_fork K _ _ fuel _ hne l t hl ht
    · simp [join_for, hlr]
  · intro init map reduce l t hl ht hlr _
    refine ⟨join_reduce reduce l t, ?_, ?_⟩
    · rw [parallel_map_reduce_eq_fork_join] at hl ht ⊢
      exact fork_join_succ_fork K _ _ fuel _ hne l t hl ht
    · simp [join_reduce, hlr]

/-- Witness for C8: over `[1,2]` with the halving policy the inline branch
holds `1` and the spawned branch holds `2`; the callback raises `10` on `1` and
`20` on `2`, and the call raises `10`. -/
theorem inline_failure_surfaces_witness :
    (∃ run : Run Nat Nat Unit,
      parallel_for (halving Nat) 2 (.plain [1, 2]) (fun x => .error (10 * x)) = some run ∧
      run.result = .error 10) ∧
    (∃ run : Run (Event Nat Nat) Nat Nat,
      parallel_map_reduce (halving Nat) 2 (.plain [1, 2]) 0 (fun x => .error (10 * x))
        (fun a b => .ok (a + b)) = some run ∧
      run.result = .error 10) :=
  ⟨(inline_failure_surfaces (β := Nat) (halving Nat) 1 (.plain [1, 2]) 10 20 (by decide)).1
      (fun x => .error (10 * x)) _ _ rfl rfl rfl rfl,
   (inline_failure_surfaces (halving Nat) 1 (.plain [1, 2]) 10 20 (by decide)).2
      0 (fun x => .error (10 * x)) (fun a b => .ok (a + b)) _ _ rfl rfl rfl rfl⟩

/-- Claim C9: for every range, `init`, `reduce` and split policy,
`parallel_reduce(R, init, reduce)` equals
`parallel_map_reduce(R, init, identity, reduce)`, and the transform
`detail::default_map` returns its argument unchanged. -/
theorem parallel_reduce_eq_map_reduce_identity {P α ε : Type}
    (K : Partitioner P α) (fuel : Nat) (range : Range P α) (init : α)
    (reduce : α → α → Except ε α) :
    parallel_reduce K fuel range init reduce
      = parallel_map_reduce K fuel range init (fun x => .ok x) reduce ∧
    ∀ x : α, default_map x = x :=
  ⟨rfl, fun _ => rfl⟩

/-- Claim C10: when repeated splitting is well-founded, the recursion of
`parallel_for` and of `parallel_map_reduce` terminates for every range and
every callback: some recursion budget suffices, every larger budget gives the
same finished run, whose trace is the finite call tree. -/
theorem recursion_terminates {P α β ε : Type}
    (K : Partitioner P α) (lt : P → P → Prop) (hwf : WellFoundedSplit K lt)
    (range : Range P α) :
    (∀ func : α → Except ε Unit,
      ∃ run, Returns (fun fuel => parallel_for K fuel range func) run) ∧
    (∀ (init : β) (map : α → Except ε β) (reduce : β → β → Except ε β),
      ∃ run, Returns (fun fuel => parallel_map_reduce K fuel range init map reduce) run) :=
  ⟨fun func => parallel_for_returns K lt hwf func range,
   fun init map reduce => parallel_map_reduce_returns K lt hwf init map reduce range⟩

/-- Witness for C10: the halving policy over `[1,2,3,4,5]`. -/
theorem recursion_terminates_witness :
    (∀ func : Nat → Except Nat Unit,
      ∃ run, Returns (fun fuel =>
        parallel_for (halving Nat) fuel (.plain [1, 2, 3, 4, 5]) func) run) ∧
    (∀ (init : Nat) (map : Nat → Except Nat Nat) (reduce : Nat → Nat → Except Nat Nat),
      ∃ run, Returns (fun fuel =>
        parallel_map_reduce (halving Nat) fuel (.plain [1, 2, 3, 4, 5]) init map reduce) run) :=
  recursion_terminates (halving Nat) shorter (halving_wf Nat) (.plain [1, 2, 3, 4, 5])

/-! ## Further facts: one step of the recursion, the shape of the call tree -/

theorem parallel_for_succ_leaf {P α ε : Type} (K : Partitioner P α) (fuel : Nat)
    (range : Range P α) (func : α → Except ε Unit)
    (h : K.elems (K.split (to_partitioner K range)).2 = []) :
    parallel_for K (fuel + 1) range func
      = some (for_leaf func (K.elems (K.split (to_partitioner K range)).1)) := by
  rw [parallel_for_eq_fork_join]
  exact fork_join_succ_leaf K _ _ fuel _ h

theorem parallel_for_succ_fork {P α ε : Type} (K : Partitioner P α) (fuel : Nat)
    (range : Range P α) (func : α → Except ε Unit)
    (h : K.elems (K.split (to_partitioner K range)).2 ≠ []) (l t : Run α ε Unit)
    (hl : parallel_for K fuel (.part (K.split (to_partitioner K range)).1) func = some l)
    (ht : parallel_for K fuel (.part (K.split (to_partitioner K range)).2) func = some t) :
    parallel_for K (fuel + 1) range func = some (join_for l t) := by
  rw [parallel_for_eq_fork_join] at hl ht ⊢
  exact fork_join_succ_fork K _ _ fuel _ h l t hl ht

theorem parallel_map_reduce_succ_leaf {P α β ε : Type} (K : Partitioner P α) (fuel : Nat)
    (range : Range P α) (init : β) (map : α → Except ε β) (reduce : β → β → Except ε β)
    (h : K.elems (K.split (to_partitioner K range)).2 = []) :
    parallel_map_reduce K (fuel + 1) range init map reduce
      = some (fold_leaf map reduce init (K.elems (K.split (to_partitioner K range)).1)) := by
  rw [parallel_map_reduce_eq_fork_join]
  exact fork_join_succ_leaf K _ _ fuel _ h

theorem parallel_map_reduce_succ_fork {P α β ε : Type} (K : Partitioner P α) (fuel : Nat)
    (range : Range P α) (init : β) (map : α → Except ε β) (reduce : β → β → Except ε β)
    (h : K.elems (K.split (to_partitioner K range)).2 ≠ []) (l t : Run (Event α β) ε β)
    (hl : parallel_map_reduce K fuel (.part (K.split (to_partitioner K range)).1)
      init map reduce = some l)
    (ht : parallel_map_reduce K fuel (.part (K.split (to_partitioner K range)).2)
      init map reduce = some t) :
    parallel_map_reduce K (fuel + 1) range init map reduce = some (join_reduce reduce l t) := by
  rw [parallel_map_reduce_eq_fork_join] at hl ht ⊢
  exact fork_join_succ_fork K _ _ fuel _ h l t hl ht

/-- A returning computation returns one value only. -/
theorem Returns.unique {X : Type} {f : Nat → Option X} {x y : X}
    (hx : Returns f x) (hy : Returns f y) : x = y := by
  obtain ⟨n, hn⟩ := hx
  obtain ⟨m, hm⟩ := hy
  have h1 := hn (max n m) (le_max_left _ _)
  have h2 := hm (max n m) (le_max_right _ _)
  rw [h1] at h2
  exact Option.some.inj h2

/-- The recursive case of `parallel_for` returns the join of what its two
branches return. -/
theorem parallel_for_returns_fork {P α ε : Type} (K : Partitioner P α)
    (range : Range P α) (func : α → Except ε Unit)
    (h : K.elems (K.split (to_partitioner K range)).2 ≠ []) (l t : Run α ε Unit)
    (hl : Returns (fun fuel =>
      parallel_for K fuel (.part (K.split (to_partitioner K range)).1) func) l)
    (ht : Returns (fun fuel =>
      parallel_for K fuel (.part (K.split (to_partitioner K range)).2) func) t) :
    Returns (fun fuel => parallel_for K fuel range func) (join_for l t) := by
  obtain ⟨n1, h1⟩ := hl
  obtain ⟨n2, h2⟩ := ht
  refine ⟨max n1 n2 + 1, fun fuel hf => ?_⟩
  obtain ⟨k, rfl⟩ : ∃ k, fuel = k + 1 := ⟨fuel - 1, by omega⟩
  have hk : max n1 n2 ≤ k := by omega
  exact parallel_for_succ_fork K k range func h l t
    (h1 k (le_trans (le_max_left _ _) hk)) (h2 k (le_trans (le_max_right _ _) hk))

/-- Mapping the results of the recursion: a function that commutes with the
base case and with the join commutes with the whole recursion. -/
theorem fork_join_map {P α X Y : Type} (K : Partitioner P α) (leaf : List α → X)
    (join : X → X → X) (leaf2 : List α → Y) (join2 : Y → Y → Y) (h : X → Y)
    (hleaf : ∀ xs, h (leaf xs) = leaf2 xs)
    (hjoin : ∀ l t, h (join l t) = join2 (h l) (h t)) :
    ∀ (fuel : Nat) (p : P),
      fork_join K leaf2 join2 fuel p = (fork_join K leaf join fuel p).map h := by
  intro fuel
  induction fuel with
  | zero => intro p; rfl
  | succ n ih =>
    intro p
    by_cases he : K.elems (K.split p).2 = []
    · rw [fork_join_succ_leaf K leaf2 join2 n p he, fork_join_succ_leaf K leaf join n p he]
      simp [hleaf]
    · simp only [fork_join, List.isEmpty_iff, he, if_false, ih]
      cases fork_join K leaf join n (K.split p).2 <;>
        cases fork_join K leaf join n (K.split p).1 <;>
        simp [hjoin]

theorem join_reduce_trace {α β ε : Type} (reduce : β → β → Except ε β)
    (l t : Run (Event α β) ε β) :
    ∃ after, (join_reduce reduce l t).trace = .fork l.trace t.trace after := by
  cases hl : l.result with
  | error a => exact ⟨[], by simp [join_reduce, hl]⟩
  | ok out =>
    cases ht : t.result with
    | error b => exact ⟨[], by simp [join_reduce, hl, ht]⟩
    | ok remote => exact ⟨[.reduce out remote], by simp [join_reduce, hl, ht]⟩

theorem join_reduce_spawns {α β ε : Type} (reduce : β → β → Except ε β)
    (l t : Run (Event α β) ε β) :
    (join_reduce reduce l t).trace.spawns = l.trace.spawns + t.trace.spawns + 1 := by
  obtain ⟨after, h⟩ := join_reduce_trace reduce l t
  rw [h]
  rfl

theorem join_reduce_leaves {α β ε : Type} (reduce : β → β → Except ε β)
    (l t : Run (Event α β) ε β) :
    (join_reduce reduce l t).trace.leaves = l.trace.leaves + t.trace.leaves := by
  obtain ⟨after, h⟩ := join_reduce_trace reduce l t
  rw [h]
  rfl

/-- The number of tasks `parallel_for` spawns is the split policy's count. -/
theorem parallel_for_spawns {P α ε : Type} (K : Partitioner P α) (func : α → Except ε Unit)
    (fuel : Nat) (range : Range P α) :
    count_spawns K fuel (to_partitioner K range)
      = (parallel_for K fuel range func).map (fun run => run.trace.spawns) := by
  rw [parallel_for_eq_fork_join]
  exact fork_join_map K (for_leaf func) join_for _ _ (fun run => run.trace.spawns)
    (fun _ => rfl) (fun _ _ => rfl) fuel _

/-- The number of tasks `parallel_map_reduce` spawns is the split policy's count. -/
theorem parallel_map_reduce_spawns {P α β ε : Type} (K : Partitioner P α) (init : β)
    (map : α → Except ε β) (reduce : β → β → Except ε β) (fuel : Nat) (range : Range P α) :
    count_spawns K fuel (to_partitioner K range)
      = (parallel_map_reduce K fuel range init map reduce).map (fun run => run.trace.spawns) := by
  rw [parallel_map_reduce_eq_fork_join]
  exact fork_join_map K (fold_leaf map reduce init) (join_reduce reduce) _ _
    (fun run => run.trace.spawns) (fun _ => rfl) (fun l t => join_reduce_spawns reduce l t) fuel _

/-- Every call tree of `parallel_for` has one leaf more than it has spawned tasks. -/
theorem parallel_for_leaves {P α ε : Type} (K : Partitioner P α) (func : α → Except ε Unit)
    (fuel : Nat) (range : Range P α) (run : Run α ε Unit)
    (h : parallel_for K fuel range func = some run) :
    run.trace.leaves = run.trace.spawns + 1 := by
  rw [parallel_for_eq_fork_join] at h
  refine fork_join_induct K (for_leaf func) join_for
    (fun _ x => x.trace.leaves = x.trace.spawns + 1) ?_ ?_ fuel _ run h
  · intro p _; rfl
  · intro p l t _ hl ht
    simp only [join_for, Trace.leaves, Trace.spawns, hl, ht]
    omega

/-- Every call tree of `parallel_map_reduce` has one leaf more than it has
spawned tasks. -/
theorem parallel_map_reduce_leaves {P α β ε : Type} (K : Partitioner P α) (init : β)
    (map : α → Except ε β) (reduce : β → β → Except ε β)
    (fuel : Nat) (range : Range P α) (run : Run (Event α β) ε β)
    (h : parallel_map_reduce K fuel range init map reduce = some run) :
    run.trace.leaves = run.trace.spawns + 1 := by
  rw [parallel_map_reduce_eq_fork_join] at h
  refine fork_join_induct K (fold_leaf map reduce init) (join_reduce reduce)
    (fun _ x => x.trace.leaves = x.trace.spawns + 1) ?_ ?_ fuel _ run h
  · intro p _; rfl
  · intro p l t _ hl ht
    rw [join_reduce_leaves, join_reduce_spawns, hl, ht]
    omega

/-! ## The claims, continued -/

/-- Claim C11: there is no cancellation of a spawned sibling. In the recursive
case of `parallel_for`, if `func` raises on some element of the remainder
(inline) portion and on no element of the split-off portion, the call raises
the inline failure, and its call tree still holds the complete run of the
spawned task, in which `func` was invoked exactly once on every element of the
split-off portion. -/
theorem spawned_sibling_runs_to_completion {P α ε : Type}
    (K : Partitioner P α) (lt : P → P → Prop) (hK : Segments K) (hwf : WellFoundedSplit K lt)
    (func : α → Except ε Unit) (range : Range P α)
    (hne : K.elems (K.split (to_partitioner K range)).2 ≠ [])
    (hinline : ∃ x ∈ K.elems (K.split (to_partitioner K range)).1, ∃ e, func x = .error e)
    (hspawned : ∀ x ∈ K.elems (K.split (to_partitioner K range)).2, func x = .ok ()) :
    ∃ run l t : Run α ε Unit,
      Returns (fun fuel => parallel_for K fuel range func) run ∧
      Returns (fun fuel =>
        parallel_for K fuel (.part (K.split (to_partitioner K range)).1) func) l ∧
      Returns (fun fuel =>
        parallel_for K fuel (.part (K.split (to_partitioner K range)).2) func) t ∧
      run.trace = .fork l.trace t.trace [] ∧
      t.result = .ok () ∧
      t.trace.events.Perm (K.elems (K.split (to_partitioner K range)).2) ∧
      ∃ e, l.result = .error e ∧ run.result = .error e := by
  obtain ⟨l, hl⟩ := parallel_for_returns K lt hwf func
    (.part (K.split (to_partitioner K range)).1)
  obtain ⟨t, ht⟩ := parallel_for_returns K lt hwf func
    (.part (K.split (to_partitioner K range)).2)
  obtain ⟨n1, hn1⟩ := hl.some
  obtain ⟨n2, hn2⟩ := ht.some
  have hsl := parallel_for_spec K hK func n1 _ l hn1
  have hst := parallel_for_spec K hK func n2 _ t hn2
  refine ⟨join_for l t, l, t, parallel_for_returns_fork K range func hne l t hl ht, hl, ht,
    rfl, hst.ok_iff.2 hspawned, hst.calls_perm hspawned, ?_⟩
  cases hres : l.result with
  | ok u =>
    obtain ⟨x, hx, e, hxe⟩ := hinline
    have := hsl.ok_iff.1 (by rw [hres]) x hx
    rw [hxe] at this
    cases this
  | error e => exact ⟨e, rfl, by simp [join_for, hres]⟩

/-- Witness for C11: over `[1,2,3,4]` with the halving policy the inline
portion is `[1,2]` and the split-off portion is `[3,4]`; `func` raises on `1`. -/
theorem spawned_sibling_runs_to_completion_witness :
    ∃ run l t : Run Nat Nat Unit,
      Returns (fun fuel => parallel_for (halving Nat) fuel (.plain [1, 2, 3, 4])
        (fun x => if x = 1 then .error 7 else .ok ())) run ∧
      Returns (fun fuel => parallel_for (halving Nat) fuel (.part [1, 2])
        (fun x => if x = 1 then .error 7 else .ok ())) l ∧
      Returns (fun fuel => parallel_for (halving Nat) fuel (.part [3, 4])
        (fun x => if x = 1 then .error 7 else .ok ())) t ∧
      run.trace = .fork l.trace t.trace [] ∧
      t.result = .ok () ∧
      t.trace.events.Perm [3, 4] ∧
      ∃ e, l.result = .error e ∧ run.result = .error e :=
  spawned_sibling_runs_to_completion (halving Nat) shorter (halving_ordered Nat).segments
    (halving_wf Nat) (fun x => if x = 1 then .error 7 else .ok ()) (.plain [1, 2, 3, 4])
    (by decide) ⟨1, by decide, 7, by simp⟩
    (fun x hx => by
      have h : x ∈ [3, 4] := hx
      simp only [List.mem_cons, List.mem_singleton, List.not_mem_nil, or_false] at h
      rcases h with rfl | rfl <;> simp)

/-- Claim C12: for every literal fixed sequence `L`, the
`std::initializer_list` overloads of `parallel_for`, `parallel_map_reduce` and
`parallel_reduce` return the same run (same value or failure, same
invocations) as the general-range overloads applied to
`make_range(L.begin(), L.end())`, and that range holds exactly the elements of
`L` in order. -/
theorem initializer_list_overloads {P α β ε : Type} (K : Partitioner P α) (fuel : Nat)
    (L : List α) :
    (∀ func : α → Except ε Unit,
      parallel_for_initializer_list K fuel L func
        = parallel_for K fuel (make_range (initializer_list_begin L) (initializer_list_end L))
            func) ∧
    (∀ (init : β) (map : α → Except ε β) (reduce : β → β → Except ε β),
      parallel_map_reduce_initializer_list K fuel L init map reduce
        = parallel_map_reduce K fuel
            (make_range (initializer_list_begin L) (initializer_list_end L)) init map reduce) ∧
    (∀ (init : α) (reduce : α → α → Except ε α),
      parallel_reduce_initializer_list K fuel L init reduce
        = parallel_reduce K fuel
            (make_range (initializer_list_begin L) (initializer_list_end L)) init reduce) ∧
    (make_range (initializer_list_begin L) (initializer_list_end L) : Range P α) = .plain L := by
  refine ⟨fun _ => rfl, fun _ _ _ => rfl, fun _ _ => rfl, ?_⟩
  simp [make_range, initializer_list_begin, initializer_list_end]

/-! ## The base-case loops -/

theorem fold_loop_eq_seq_fold_raising {α β ε : Type} (map : α → Except ε β)
    (reduce : β → β → Except ε β) (xs : List α) :
    ∀ out : β, (fold_loop map reduce out xs).2 = seq_fold_raising map reduce out xs := by
  induction xs with
  | nil => intro out; rfl
  | cons i rest ih =>
    intro out
    cases hm : map i with
    | error e => simp [fold_loop, seq_fold_raising, hm]
    | ok y =>
      cases hr : reduce out y with
      | error e => simp [fold_loop, seq_fold_raising, hm, hr]
      | ok out2 =>
        simp only [fold_loop, seq_fold_raising, hm, hr]
        exact ih out2

theorem fold_loop_map_calls {α β ε : Type} (map : α → Except ε β)
    (reduce : β → β → Except ε β) (xs : List α) :
    ∀ (out v : β), (fold_loop map reduce out xs).2 = .ok v →
      map_calls (fold_loop map reduce out xs).1 = xs := by
  induction xs with
  | nil => intro out v _; rfl
  | cons i rest ih =>
    intro out v h
    cases hm : map i with
    | error e => simp [fold_loop, hm] at h
    | ok y =>
      cases hr : reduce out y with
      | error e => simp [fold_loop, hm, hr] at h
      | ok out2 =>
        simp only [fold_loop, hm, hr] at h ⊢
        simp only [map_calls, ih out2 v h]

theorem for_loop_stops {α ε : Type} (func : α → Except ε Unit) (e : α) (post : List α)
    (err : ε) (he : func e = .error err) :
    ∀ pre : List α, (∀ x ∈ pre, func x = .ok ()) →
      for_loop func (pre ++ e :: post) = (pre ++ [e], .error err) := by
  intro pre
  induction pre with
  | nil => intro _; simp [for_loop, he]
  | cons i rest ih =>
    intro h
    have hi : func i = .ok () := h i (by simp)
    have hr := ih (fun x hx => h x (List.mem_cons_of_mem _ hx))
    simp [for_loop, hi, hr]

/-- Claim C13: the base case of `parallel_map_reduce`. Whenever the first
`split()` returns an empty portion, the call spawns no task and its result is
the sequential fold `acc := reduce(acc, map(x))` over the partitioner's
remaining elements in order starting from `init`, for arbitrary `init`, `map`
and `reduce`; when a value is returned, `map` was invoked exactly once per
element, in order. -/
theorem parallel_map_reduce_base_case {P α β ε : Type}
    (K : Partitioner P α) (fuel : Nat) (range : Range P α) (init : β)
    (hbase : K.elems (K.split (to_partitioner K range)).2 = []) :
    (∀ (map : α → Except ε β) (reduce : β → β → Except ε β),
      ∃ run, parallel_map_reduce K (fuel + 1) range init map reduce = some run ∧
        run.trace.spawns = 0 ∧ run.trace.leaves = 1 ∧
        run.result = seq_fold_raising map reduce init
          (K.elems (K.split (to_partitioner K range)).1) ∧
        (∀ v, run.result = .ok v →
          map_calls run.trace.events = K.elems (K.split (to_partitioner K range)).1)) ∧
    (∀ (m : α → β) (r : β → β → β),
      ∃ run : Run (Event α β) ε β,
        parallel_map_reduce K (fuel + 1) range init (fun x => .ok (m x))
          (fun a b => .ok (r a b)) = some run ∧
        run.trace.spawns = 0 ∧
        run.result = .ok (seq_fold m r init (K.elems (K.split (to_partitioner K range)).1)) ∧
        map_calls run.trace.events = K.elems (K.split (to_partitioner K range)).1) := by
  constructor
  · intro map reduce
    refine ⟨_, parallel_map_reduce_succ_leaf K fuel range init map reduce hbase, rfl, rfl,
      fold_loop_eq_seq_fold_raising map reduce _ init, ?_⟩
    intro v hv
    exact fold_loop_map_calls map reduce _ init v hv
  · intro m r
    refine ⟨_, parallel_map_reduce_succ_leaf K fuel range init _ _ hbase, rfl,
      fold_loop_pure m r _ init, ?_⟩
    exact fold_loop_map_calls _ _ _ init _ (fold_loop_pure m r _ init)

/-- Witness for C13: a partitioner of grain 3 does not split `[1,2,3,4]`; with
subtraction (not associative) and `init = 100` (not neutral) the result is
`(((100 - 1) - 2) - 3) - 4 = 90`. -/
theorem parallel_map_reduce_base_case_witness :
    ∃ run : Run (Event Int Int) Unit Int,
      parallel_map_reduce (grained 3 Int) 1 (.plain [1, 2, 3, 4]) 100 (fun x => .ok x)
        (fun a b => .ok (a - b)) = some run ∧
      run.trace.spawns = 0 ∧
      run.result = .ok 90 ∧
      map_calls run.trace.events = [1, 2, 3, 4] :=
  (parallel_map_reduce_base_case (grained 3 Int) 0 (.plain [1, 2, 3, 4]) 100 rfl).2
    (fun x => x) (fun a b => a - b)

/-- Claim C14: the base case of `parallel_for`. Whenever the first `split()`
returns an empty portion, the call spawns no task and invokes `func` on the
partitioner's remaining elements one at a time in order: if `func` raises
nowhere the sequence of invocations is the element list, and if `func` first
raises on an element, the invocations stop with that element and the call
raises that failure. -/
theorem parallel_for_base_case {P α ε : Type}
    (K : Partitioner P α) (fuel : Nat) (range : Range P α) (func : α → Except ε Unit)
    (hbase : K.elems (K.split (to_partitioner K range)).2 = []) :
    ∃ run, parallel_for K (fuel + 1) range func = some run ∧
      run.trace.spawns = 0 ∧
      (∃ calls, run.trace = .leaf calls ∧
        calls <+: K.elems (K.split (to_partitioner K range)).1) ∧
      ((∀ x ∈ K.elems (K.split (to_partitioner K range)).1, func x = .ok ()) →
        run.trace = .leaf (K.elems (K.split (to_partitioner K range)).1) ∧
        run.result = .ok ()) ∧
      (∀ (pre : List α) (e : α) (post : List α) (err : ε),
        K.elems (K.split (to_partitioner K range)).1 = pre ++ e :: post →
        (∀ x ∈ pre, func x = .ok ()) → func e = .error err →
        run.trace = .leaf (pre ++ [e]) ∧ run.result = .error err) := by
  refine ⟨_, parallel_for_succ_leaf K fuel range func hbase, rfl,
    ⟨_, rfl, for_loop_calls_initial func _⟩, ?_, ?_⟩
  · intro hall
    simp only [for_leaf]
    rw [for_loop_calls_of_ok func _ hall]
    exact ⟨rfl, (for_loop_ok_iff func _).2 hall⟩
  · intro pre e post err hsplit hpre he
    simp only [for_leaf]
    rw [hsplit, for_loop_stops func e post err he pre hpre]
    exact ⟨rfl, rfl⟩

/-- Witness for C14: a partitioner of grain 3 does not split `[1,2,3,4]`;
`func` raises on `3`, so it is invoked on `1`, `2`, `3` and not on `4`. -/
theorem parallel_for_base_case_witness :
    ∃ run : Run Nat Nat Unit,
      parallel_for (grained 3 Nat) 1 (.plain [1, 2, 3, 4])
        (fun x => if x = 3 then .error 7 else .ok ()) = some run ∧
      run.trace = .leaf [1, 2, 3] ∧ run.result = .error 7 := by
  obtain ⟨run, hrun, _, _, _, hstop⟩ := parallel_for_base_case (grained 3 Nat) 0
    (.plain [1, 2, 3, 4]) (fun x => if x = 3 then Except.error 7 else Except.ok ()) rfl
  exact ⟨run, hrun, hstop [1, 2] 3 [4] 7 rfl
    (fun x hx => by
      simp only [List.mem_cons, List.mem_singleton, List.not_mem_nil, or_false] at hx
      rcases hx with rfl | rfl <;> simp)
    (by simp)⟩

/-! ## Counting spawned tasks -/

/-- Claim C15: each call of `parallel_for` and of `parallel_map_reduce` that is
not a base case spawns exactly one sub-computation, over the split-off portion,
and continues inline on the remainder; hence, for a well-founded split policy,
the number of spawned sub-computations of a top-level call is the number of
its base-case partitions minus one, and it is the count given by the split
policy alone, whatever the callbacks do. -/
theorem one_spawn_per_split {P α β ε : Type}
    (K : Partitioner P α) (lt : P → P → Prop) (hwf : WellFoundedSplit K lt)
    (range : Range P α) :
    (∀ (fuel : Nat) (func : α → Except ε Unit) (l t : Run α ε Unit),
      K.elems (K.split (to_partitioner K range)).2 ≠ [] →
      parallel_for K fuel (.part (K.split (to_partitioner K range)).1) func = some l →
      parallel_for K fuel (.part (K.split (to_partitioner K range)).2) func = some t →
      ∃ run, parallel_for K (fuel + 1) range func = some run ∧
        run.trace = .fork l.trace t.trace [] ∧
        run.trace.spawns = l.trace.spawns + t.trace.spawns + 1) ∧
    (∀ (fuel : Nat) (init : β) (map : α → Except ε β) (reduce : β → β → Except ε β)
        (l t : Run (Event α β) ε β),
      K.elems (K.split (to_partitioner K range)).2 ≠ [] →
      parallel_map_reduce K fuel (.part (K.split (to_partitioner K range)).1)
        init map reduce = some l →
      parallel_map_reduce K fuel (.part (K.split (to_partitioner K range)).2)
        init map reduce = some t →
      ∃ run, parallel_map_reduce K (fuel + 1) range init map reduce = some run ∧
        (∃ after, run.trace = .fork l.trace t.trace after) ∧
        run.trace.spawns = l.trace.spawns + t.trace.spawns + 1) ∧
    ∃ n, Returns (fun fuel => count_spawns K fuel (to_partitioner K range)) n ∧
      (∀ func : α → Except ε Unit,
        ∃ run, Returns (fun fuel => parallel_for K fuel range func) run ∧
          run.trace.spawns = n ∧ run.trace.leaves = n + 1) ∧
      (∀ (init : β) (map : α → Except ε β) (reduce : β → β → Except ε β),
        ∃ run, Returns (fun fuel => parallel_map_reduce K fuel range init map reduce) run ∧
          run.trace.spawns = n ∧ run.trace.leaves = n + 1) := by
  refine ⟨?_, ?_, ?_⟩
  · intro fuel func l t hne hl ht
    exact ⟨join_for l t, parallel_for_succ_fork K fuel range func hne l t hl ht, rfl, rfl⟩
  · intro fuel init map reduce l t hne hl ht
    exact ⟨join_reduce reduce l t,
      parallel_map_reduce_succ_fork K fuel range init map reduce hne l t hl ht,
      join_reduce_trace reduce l t, join_reduce_spawns reduce l t⟩
  · obtain ⟨n, hn⟩ := fork_join_returns K lt hwf (fun _ => 0) (fun l t => l + t + 1)
      (to_partitioner K range)
    have hcount : Returns (fun fuel => count_spawns K fuel (to_partitioner K range)) n := hn
    refine ⟨n, hcount, ?_, ?_⟩
    · intro func
      obtain ⟨run, hrun⟩ := parallel_for_returns K lt hwf func range
      obtain ⟨a, ha⟩ := hcount
      obtain ⟨b, hb⟩ := hrun
      have h1 := ha (max a b) (le_max_left _ _)
      have h2 := hb (max a b) (le_max_right _ _)
      have h3 := parallel_for_spawns K func (max a b) range
      simp only at h1 h2
      rw [h1, h2] at h3
      have h4 : run.trace.spawns = n := (Option.some.inj h3).symm
      exact ⟨run, ⟨b, hb⟩, h4, by rw [parallel_for_leaves K func _ range run h2, h4]⟩
    · intro init map reduce
      obtain ⟨run, hrun⟩ := parallel_map_reduce_returns K lt hwf init map reduce range
      obtain ⟨a, ha⟩ := hcount
      obtain ⟨b, hb⟩ := hrun
      have h1 := ha (max a b) (le_max_left _ _)
      have h2 := hb (max a b) (le_max_right _ _)
      have h3 := parallel_map_reduce_spawns K init map reduce (max a b) range
      simp only at h1 h2
      rw [h1, h2] at h3
      have h4 : run.trace.spawns = n := (Option.some.inj h3).symm
      exact ⟨run, ⟨b, hb⟩, h4,
        by rw [parallel_map_reduce_leaves K init map reduce _ range run h2, h4]⟩

/-- Witness for C15: over `[1,2,3,4,5]` the halving policy spawns 4 tasks for 5
base cases, also when the callback of `parallel_for` raises on `2`. -/
theorem one_spawn_per_split_witness :
    ∃ run : Run Nat Nat Unit,
      Returns (fun fuel => parallel_for (halving Nat) fuel (.plain [1, 2, 3, 4, 5])
        (fun x => if x = 2 then .error 7 else .ok ())) run ∧
      run.trace.spawns = 4 ∧ run.trace.leaves = 5 := by
  obtain ⟨n, hn, hfor, _⟩ := (one_spawn_per_split (β := Nat) (ε := Nat) (halving Nat) shorter
    (halving_wf Nat) (.plain [1, 2, 3, 4, 5])).2.2
  have h4 : Returns (fun fuel =>
      count_spawns (halving Nat) fuel (to_partitioner (halving Nat) (.plain [1, 2, 3, 4, 5])))
      4 :=
    ⟨4, fun fuel hf => fork_join_mono (halving Nat) _ _ 4 fuel _ 4 hf rfl⟩
  have hn4 : n = 4 := hn.unique h4
  obtain ⟨run, hrun, hs, hl⟩ := hfor (fun x => if x = 2 then .error 7 else .ok ())
  exact ⟨run, hrun, by rw [hs, hn4], by rw [hl, hn4]⟩

/-! ## The role of `init` and of the detached side -/

theorem seq_fold_add {xs : List Int} :
    ∀ acc : Int, seq_fold (fun x => x) (fun a b => a + b) acc xs = acc + xs.sum := by
  induction xs with
  | nil => intro acc; simp [seq_fold]
  | cons x rest ih =>
    intro acc
    have h : seq_fold (fun x => x) (fun a b => a + b) acc (x :: rest)
        = seq_fold (fun x => x) (fun a b => a + b) (acc + x) rest := rfl
    rw [h, ih, List.sum_cons]
    ring

/-- With addition and the identity transform every run of
`parallel_map_reduce` returns the sum of the elements plus `init` once per
base case. -/
theorem parallel_map_reduce_add {P ε : Type} (K : Partitioner P Int) (hK : Ordered K)
    (init : Int) (fuel : Nat) (range : Range P Int) (run : Run (Event Int Int) ε Int)
    (h : parallel_map_reduce K fuel range init (fun x => .ok x) (fun a b => .ok (a + b))
      = some run) :
    run.result = .ok ((Range.elems K range).sum + run.trace.leaves * init) := by
  rw [parallel_map_reduce_eq_fork_join] at h
  rw [← hK.to_partitioner_elems range]
  refine fork_join_induct K _ _
    (fun p (x : Run (Event Int Int) ε Int) =>
      x.result = .ok ((K.elems p).sum + x.trace.leaves * init))
    ?_ ?_ fuel _ run h
  · intro p he
    have hp := hK.split_elems p
    rw [he, List.append_nil] at hp
    rw [← hp]
    have hf := fold_loop_pure (ε := ε) (fun x : Int => x) (fun a b => a + b)
      (K.elems (K.split p).1) init
    simp only [fold_leaf, Trace.leaves, hf, seq_fold_add]
    congr 1
    push_cast
    ring
  · intro p l t _ hl ht
    rw [← hK.split_elems p, join_reduce_leaves,
      join_reduce_pure (fun a b : Int => a + b) l t _ _ hl ht, List.sum_append]
    congr 1
    push_cast
    ring

theorem parallel_map_reduce_mono {P α β ε : Type} (K : Partitioner P α) (init : β)
    (map : α → Except ε β) (reduce : β → β → Except ε β) (range : Range P α)
    (n m : Nat) (run : Run (Event α β) ε β) (hnm : n ≤ m)
    (h : parallel_map_reduce K n range init map reduce = some run) :
    parallel_map_reduce K m range init map reduce = some run := by
  rw [parallel_map_reduce_eq_fork_join] at h ⊢
  exact fork_join_mono K _ _ n m _ run hnm h

theorem grained_ordered (g : Nat) (α : Type) : Ordered (grained g α) where
  from_range_elems := fun _ => rfl
  split_elems := fun p => by
    by_cases h : 2 ≤ p.length ∧ 2 * g ≤ p.length <;> simp [grained, h]

theorem grained_wf (g : Nat) (α : Type) : WellFoundedSplit (grained g α) shorter where
  wf := shorter_wf
  remainder_lt := fun p => by
    by_cases h : 2 ≤ p.length ∧ 2 * g ≤ p.length
    · intro _
      simp only [grained, h, and_self, if_true, shorter, List.length_take]
      omega
    · simp [grained, h]
  subpart_lt := fun p => by
    by_cases h : 2 ≤ p.length ∧ 2 * g ≤ p.length
    · intro _
      simp only [grained, h, and_self, if_true, shorter, List.length_drop]
      omega
    · simp [grained, h]

theorem front_detaching_detaches_earlier (α : Type) : DetachesEarlier (front_detaching α) where
  from_range_elems := fun _ => rfl
  split_elems := fun p => by
    by_cases h : 2 ≤ p.length
    · simp only [front_detaching, h, if_true]
      exact List.take_append_drop 1 p
    · simp [front_detaching, h]

theorem front_detaching_wf (α : Type) : WellFoundedSplit (front_detaching α) shorter where
  wf := shorter_wf
  remainder_lt := fun p => by
    by_cases h : 2 ≤ p.length
    · intro _
      simp only [front_detaching, h, if_true, shorter, List.length_drop]
      omega
    · simp [front_detaching, h]
  subpart_lt := fun p => by
    by_cases h : 2 ≤ p.length
    · intro _
      simp only [front_detaching, h, if_true, shorter, List.length_take]
      omega
    · simp [front_detaching, h]

/-- Claim C16: `init` is folded in once per base case. For every range of
integers, every integer `init` and every split policy satisfying the
partitioner contract, `parallel_map_reduce(R, init, identity, addition)`
returns the sum of the elements plus `init` times the number of base cases of
the call tree; and over `[1,2,3,4]` with `init = 10` and a policy giving two
base cases the result is `30`, while the sequential left fold from `init` is
`20`. -/
theorem init_folded_once_per_leaf {P ε : Type}
    (K : Partitioner P Int) (lt : P → P → Prop) (hK : Ordered K) (hwf : WellFoundedSplit K lt)
    (range : Range P Int) (init : Int) :
    (∃ run : Run (Event Int Int) ε Int,
      Returns (fun fuel => parallel_map_reduce K fuel range init
        (fun x => .ok x) (fun a b => .ok (a + b))) run ∧
      run.result = .ok ((Range.elems K range).sum + run.trace.leaves * init)) ∧
    (∃ run : Run (Event Int Int) ε Int,
      Returns (fun fuel => parallel_map_reduce (grained 2 Int) fuel (.plain [1, 2, 3, 4]) 10
        (fun x => .ok x) (fun a b => .ok (a + b))) run ∧
      run.trace.leaves = 2 ∧ run.result = .ok 30 ∧
      seq_fold (fun x => x) (fun a b => a + b) (10 : Int) [1, 2, 3, 4] = 20) := by
  constructor
  · obtain ⟨run, hrun⟩ := parallel_map_reduce_returns (ε := ε) K lt hwf init
      (fun x => .ok x) (fun a b => .ok (a + b)) range
    obtain ⟨n, hn⟩ := hrun.some
    exact ⟨run, hrun, parallel_map_reduce_add K hK init n range run hn⟩
  · have h2 : ∃ run : Run (Event Int Int) ε Int,
        parallel_map_reduce (grained 2 Int) 2 (.plain [1, 2, 3, 4]) 10
          (fun x => .ok x) (fun a b => .ok (a + b)) = some run ∧
        run.trace.leaves = 2 ∧ run.result = .ok 30 := ⟨_, rfl, rfl, rfl⟩
    obtain ⟨run, hrun, hleaves, hres⟩ := h2
    exact ⟨run, ⟨2, fun fuel hf => parallel_map_reduce_mono _ _ _ _ _ 2 fuel run hf hrun⟩,
      hleaves, hres, rfl⟩

/-- Witness for C16: the policy of grain 2 over `[1,2,3,4]` with `init = 10`. -/
theorem init_folded_once_per_leaf_witness :
    (∃ run : Run (Event Int Int) Unit Int,
      Returns (fun fuel => parallel_map_reduce (grained 2 Int) fuel (.plain [1, 2, 3, 4]) 10
        (fun x => .ok x) (fun a b => .ok (a + b))) run ∧
      run.result = .ok ((Range.elems (grained 2 Int) (.plain [1, 2, 3, 4])).sum
        + run.trace.leaves * 10)) ∧
    (∃ run : Run (Event Int Int) Unit Int,
      Returns (fun fuel => parallel_map_reduce (grained 2 Int) fuel (.plain [1, 2, 3, 4]) 10
        (fun x => .ok x) (fun a b => .ok (a + b))) run ∧
      run.trace.leaves = 2 ∧ run.result = .ok 30 ∧
      seq_fold (fun x => x) (fun a b => a + b) (10 : Int) [1, 2, 3, 4] = 20) :=
  init_folded_once_per_leaf (grained 2 Int) shorter (grained_ordered 2 Int) (grained_wf 2 Int)
    (.plain [1, 2, 3, 4]) 10

/-- Claim C17: the original-order guarantee depends on which side `split()`
detaches. The code computes `reduce(result over remainder, result over
split-off portion)`, so for the partitioner that segments without reordering
but detaches the earlier element and keeps the later ones, over `["a","b"]`
with concatenation (associative, not commutative) and the neutral `init = ""`,
`parallel_map_reduce` returns `"ba"`, which is not the sequential left fold in
original order, `"ab"`. -/
theorem order_depends_on_detached_side :
    DetachesEarlier (front_detaching String) ∧
    WellFoundedSplit (front_detaching String) shorter ∧
    (∀ a b c : String, (a ++ b) ++ c = a ++ (b ++ c)) ∧
    (∀ a : String, a ++ "" = a ∧ "" ++ a = a) ∧
    ("a" ++ "b" ≠ "b" ++ "a") ∧
    ∃ run : Run (Event String String) Unit String,
      Returns (fun fuel => parallel_map_reduce (front_detaching String) fuel
        (.plain ["a", "b"]) "" (fun x => .ok x) (fun a b => .ok (a ++ b))) run ∧
      run.result = .ok "ba" ∧
      seq_fold (fun x => x) (fun a b => a ++ b) "" ["a", "b"] = "ab" ∧
      run.result ≠ .ok (seq_fold (fun x => x) (fun a b => a ++ b) "" ["a", "b"]) := by
  refine ⟨front_detaching_detaches_earlier String, front_detaching_wf String,
    String.append_assoc, fun a => ⟨String.append_empty a, String.empty_append a⟩,
    by decide, ?_⟩
  have h2 : ∃ run : Run (Event String String) Unit String,
      parallel_map_reduce (front_detaching String) 2 (.plain ["a", "b"]) ""
        (fun x => .ok x) (fun a b => .ok (a ++ b)) = some run ∧
      run.result = .ok "ba" := ⟨_, rfl, rfl⟩
  obtain ⟨run, hrun, hres⟩ := h2
  refine ⟨run, ⟨2, fun fuel hf => parallel_map_reduce_mono _ _ _ _ _ 2 fuel run hf hrun⟩,
    hres, rfl, ?_⟩
  rw [hres]
  intro h
  have h3 : "ba" = seq_fold (fun x => x) (fun a b => a ++ b) "" ["a", "b"] :=
    Except.ok.inj h
  revert h3
  decide

end Async
